import Mathlib

/-!
# twitch-downloader: segment range selection and the sequential merging reader

A shallow embedding of `sliceSegments` and of `Merger` (`next`, `Read`, `Chunks`,
`Current`) from `download.go`, and a model of the media playlist parser `m3u8.Media`
taken from the specification, followed by the properties proved about them.

Conventions of the embedding:
* `time.Duration` is an `int64` count of nanoseconds. It is an `Int` here and every
  addition the source performs on it is wrapped by `wrap64`.
* A Go `error` value is a `GoError`; a nullable `error` is an `Option GoError`.
* A function returning `(value, error)` where the value is `nil` on error returns
  an `Except`.
-/

namespace TwitchDL

/-! ## Durations -/

/-- Two's complement wrap-around of a mathematical integer into the `int64` range. -/
def wrap64 (x : Int) : Int := (x + 2 ^ 63) % 2 ^ 64 - 2 ^ 63

/-- The constant `math.MaxInt64`. -/
def MaxInt64 : Int := 2 ^ 63 - 1

/-- The constant `time.Millisecond`, in nanoseconds. -/
def Millisecond : Int := 1000000

/-- The constant `time.Second`, in nanoseconds. -/
def Second : Int := 1000000000

/-! ## Errors -/

/-- Go `error` values as far as `download.go` builds and compares them. -/
inductive GoError where
  /-- The sentinel `io.EOF`. -/
  | EOF : GoError
  /-- An error made by `errors.New(msg)`, or any other error identified by its message. -/
  | New (msg : String) : GoError
  /-- An error made by `fmt.Errorf(format, dur)` with one duration argument. -/
  | Errorf (format : String) (dur : Int) : GoError
  /-- An error wrapped by `errors.WithStack`. -/
  | WithStack (e : GoError) : GoError
  deriving DecidableEq, Repr

/-- The function `errors.WithStack`: `nil` stays `nil`, any other error is wrapped. -/
def errors_WithStack : Option GoError → Option GoError
  | none => none
  | some e => some (GoError.WithStack e)

/-! ## Segment range selection -/

/-- Modelled from the spec: the type `m3u8.MediaSegment`, whose declaration is in the
`m3u8` package; the fields are those of the spec's `Segment` and of `TestMedia`. -/
structure MediaSegment where
  Duration : Int
  Number : Int
  URL : String
  deriving DecidableEq, Repr

/-- The first loop of `sliceSegments`: `slice` and `segmentStart` are its variables,
and the list is what `range segments` has still to visit. -/
def sliceSegments.loop (start end_ : Int) :
    List MediaSegment → List MediaSegment → Int → List MediaSegment
  | [], slice, _ => slice
  | segment :: rest, slice, segmentStart =>
    let segmentEnd := wrap64 (segmentStart + segment.Duration)
    if segmentEnd ≤ start then
      sliceSegments.loop start end_ rest slice (wrap64 (segmentStart + segment.Duration))
    else if segmentStart ≥ end_ then
      slice
    else
      sliceSegments.loop start end_ rest (slice ++ [segment])
        (wrap64 (segmentStart + segment.Duration))

/-- The second loop of `sliceSegments`: `dur += segment.Duration` over all segments. -/
def sliceSegments.dur : List MediaSegment → Int → Int
  | [], dur => dur
  | segment :: rest, dur => sliceSegments.dur rest (wrap64 (dur + segment.Duration))

/-- The function `sliceSegments` of `download.go`. -/
def sliceSegments (segments : List MediaSegment) (start end_ : Int) :
    Except GoError (List MediaSegment) :=
  if start < 0 ∨ end_ < 0 then
    .error (GoError.New "Negative timestamps are not allowed")
  else if start ≥ end_ ∧ end_ ≠ 0 then
    .error (GoError.New "End timestamp is not after Start timestamp")
  else if start = 0 ∧ end_ = 0 then
    .ok segments
  else
    let end_ := if end_ = 0 then MaxInt64 else end_
    let slice := sliceSegments.loop start end_ segments [] 0
    if slice.length = 0 then
      .error (GoError.Errorf
        "Timestamps are not a subset of the video (video duration is %v)"
        (sliceSegments.dur segments 0))
    else
      .ok slice

/-! ### Specification vocabulary for the selector -/

/-- The sum of the durations of a list of segments, as a mathematical integer. -/
def totalDuration (segments : List MediaSegment) : Int :=
  (segments.map MediaSegment.Duration).sum

/-- The cumulative start time of segment `i`: the sum of the durations before it. -/
def segmentStartAt (segments : List MediaSegment) (i : Nat) : Int :=
  totalDuration (segments.take i)

/-- The cumulative end time of segment `i`. -/
def segmentEndAt (segments : List MediaSegment) (i : Nat) : Int :=
  totalDuration (segments.take (i + 1))

/-- The inclusion test of the spec, `segmentEnd > start && segmentStart < end`. -/
def overlaps (segments : List MediaSegment) (start end_ : Int) (i : Nat) : Prop :=
  segmentEndAt segments i > start ∧ segmentStartAt segments i < end_

instance overlapsDecidable (segments : List MediaSegment) (start end_ : Int) (i : Nat) :
    Decidable (overlaps segments start end_ i) := by
  unfold overlaps; infer_instance

/-- The segments that pass the inclusion test, in their original order. -/
def overlapping (segments : List MediaSegment) (start end_ : Int) : List MediaSegment :=
  (List.range segments.length).filterMap fun i =>
    if overlaps segments start end_ i then segments[i]? else none

/-- The inclusion test applied along a list whose first segment starts at
`segmentStart`: the recursive form of `overlapping`. -/
def overlappingFrom (start end_ : Int) : Int → List MediaSegment → List MediaSegment
  | _, [] => []
  | segmentStart, segment :: rest =>
    if segmentStart + segment.Duration > start ∧ segmentStart < end_ then
      segment :: overlappingFrom start end_ (segmentStart + segment.Duration) rest
    else
      overlappingFrom start end_ (segmentStart + segment.Duration) rest

/-- The overlap of segment `i` with a window whose end `0` stands for "unbounded":
the segment ends after `start` and, when the window has an end, starts before it. -/
def overlapsWindow (segments : List MediaSegment) (start end_ : Int) (i : Nat) : Prop :=
  segmentEndAt segments i > start ∧ (end_ = 0 ∨ segmentStartAt segments i < end_)

/-- The error `sliceSegments` returns for an empty selection, carrying `dur`. -/
def notSubsetError (dur : Int) : GoError :=
  GoError.Errorf "Timestamps are not a subset of the video (video duration is %v)" dur

/-- A list whose first segment already ends at `math.MaxInt64` and whose second
segment has duration zero. -/
def maxedSegments : List MediaSegment :=
  [⟨MaxInt64, 0, "0.ts"⟩, ⟨0, 1, "1.ts"⟩]

/-- The two segments of the spec's scenario: `11.5s` and `13s`. -/
def scenarioSegments : List MediaSegment :=
  [⟨11 * Second + 500 * Millisecond, 2, "0.ts"⟩, ⟨13 * Second, 3, "1.ts"⟩]

/-! ## The sequential merging reader -/

/-- A byte of a stream. `Merger` never inspects bytes, so any type would do. -/
abbrev Byte := Nat

/-- The interface `io.ReadCloser`, for streams whose state has type `σ`.
`Read s p` is the call `Read(p)` on a stream in state `s` with `len(p) = p`: it gives
the bytes stored into the buffer (their number is the `n` returned), the error
returned and the stream's next state. `Close s` is the error `Close()` returns. -/
structure ReadCloser (σ : Type) where
  Read : σ → Nat → List Byte × Option GoError × σ
  Close : σ → Option GoError

/-- The type `downloadFunc`: invoking it returns a stream (`nil` is `none`) and an
error (`nil` is `none`). -/
abbrev downloadFunc (σ : Type) := Unit → Option σ × Option GoError

/-- The struct `Merger`. The field `index` holds the number of times `r.index++` has
run, which is the value of the Go field for as long as that `int` has not overflowed.
The overflow itself is in `Merger.nextInt` and `Merger.ReadInt`, which read `index` as
the bit pattern of an `int` of a given width; `Merger.ReadInt_eq_Read` shows that
they agree with `Merger.next` and `Merger.Read` below the largest `int`. -/
structure Merger (σ : Type) where
  downloads : List (downloadFunc σ)
  index : Nat
  current : Option σ
  err : Option GoError

/-- The value `&Merger{downloads: downloadFns}` built by `Download`. -/
def Merger.new {σ : Type} (downloadFns : List (downloadFunc σ)) : Merger σ :=
  { downloads := downloadFns, index := 0, current := none, err := none }

/-- What a test double observes of a `Merger`: calls of providers and calls on the
streams they returned. These records are not part of the Go state. -/
inductive Event where
  /-- Provider `i` was invoked; `opened` tells whether it returned a stream. -/
  | invoke (i : Nat) (opened : Bool) : Event
  /-- `Read` was called on the current stream; `eof` tells whether it returned `io.EOF`. -/
  | read (eof : Bool) : Event
  /-- `Close` was called on the current stream. -/
  | close : Event
  deriving DecidableEq, Repr

/-- The method `Merger.next`: the error returned, the receiver afterwards, and the
provider call it made. Here `r.index++` does not overflow; `Merger.nextInt` is the
same method on an `int` that does, and equals this one below the largest `int`
(`Merger.nextInt_eq_next`). -/
def Merger.next {σ : Type} (r : Merger σ) : Option GoError × Merger σ × List Event :=
  if h : r.index ≥ r.downloads.length then
    (none, { r with current := none, index := r.index + 1 }, [])
  else
    let out := r.downloads.get ⟨r.index, by omega⟩ ()
    (out.2, { r with current := out.1, index := r.index + 1 },
      [Event.invoke r.index out.1.isSome])

/-- The outcome of one call `Merger.Read(p)`: the bytes stored into `p` (their number is
the `n` returned), the error returned, the receiver after the call, and the calls the
test double observed during it. -/
structure ReadResult (σ : Type) where
  data : List Byte
  err : Option GoError
  r : Merger σ
  trace : List Event

/-- Prefixing the observed calls of a result. -/
def ReadResult.after {σ : Type} (events : List Event) (o : ReadResult σ) : ReadResult σ :=
  { o with trace := events ++ o.trace }

/-- The branch `if r.current != nil` of `Merger.Read`: one `Read` on the open stream,
a `Close` when that returned `io.EOF`, and the `return`. -/
def Merger.readCurrent {σ : Type} (io : ReadCloser σ) (r : Merger σ) (current : σ) (p : Nat) :
    ReadResult σ :=
  let out := io.Read current p
  if out.2.1 = some GoError.EOF then
    let err := io.Close out.2.2
    ⟨out.1, errors_WithStack err, { r with current := none },
      [Event.read true, Event.close]⟩
  else
    ⟨out.1, errors_WithStack out.2.1, { r with current := some out.2.2 },
      [Event.read false]⟩

/-- The `for` loop of `Merger.Read`, run for at most `fuel` iterations; `none` when the
iterations run out before a `return`. -/
def Merger.Read.loop {σ : Type} (io : ReadCloser σ) (p : Nat) :
    Nat → Merger σ → Option (ReadResult σ)
  | 0, _ => none
  | fuel + 1, r =>
    match r.err with
    | some e => some ⟨[], some e, r, []⟩
    | none =>
      match r.current with
      | some current => some (Merger.readCurrent io r current p)
      | none =>
        let nxt := r.next
        match nxt.1 with
        | some err => some ⟨[], some err, nxt.2.1, nxt.2.2⟩
        | none =>
          match nxt.2.1.current with
          | none => some ⟨[], some GoError.EOF, nxt.2.1, nxt.2.2⟩
          | some _ => (Merger.Read.loop io p fuel nxt.2.1).map (ReadResult.after nxt.2.2)

/-- The method `Merger.Read`, called with a buffer of length `p`. Two iterations of
its loop always reach a `return` (`Merger.Read_returns`). -/
def Merger.Read {σ : Type} (io : ReadCloser σ) (r : Merger σ) (p : Nat) :
    Option (ReadResult σ) :=
  Merger.Read.loop io p 2 r

/-- The method `Merger.Chunks`. -/
def Merger.Chunks {σ : Type} (r : Merger σ) : Nat := r.downloads.length

/-- The method `Merger.Current`. -/
def Merger.Current {σ : Type} (r : Merger σ) : Nat := r.index

/-- The outcome of a sequence of `Read` calls with buffers of the given lengths: what
each call returned, the receiver at the end, and all observed calls in order. -/
structure RunResult (σ : Type) where
  outs : List (List Byte × Option GoError)
  r : Merger σ
  trace : List Event

/-- A sequence of `Merger.Read` calls, one for each buffer length of the list. -/
def Merger.Reads {σ : Type} (io : ReadCloser σ) : Merger σ → List Nat → Option (RunResult σ)
  | r, [] => some ⟨[], r, []⟩
  | r, p :: ps =>
    match Merger.Read io r p with
    | none => none
    | some o =>
      match Merger.Reads io o.r ps with
      | none => none
      | some run => some ⟨(o.data, o.err) :: run.outs, run.r, o.trace ++ run.trace⟩

/-- The caller's loop: `Merger.Read` is called with the buffer lengths of the list, in
order, until a call returns `io.EOF`; the result is the concatenation of the bytes of
all these calls and whether `io.EOF` was reached before the list ran out. -/
def Merger.drain {σ : Type} (io : ReadCloser σ) : Merger σ → List Nat →
    Option (List Byte × Bool)
  | _, [] => some ([], false)
  | r, p :: ps =>
    match Merger.Read io r p with
    | none => none
    | some o =>
      if o.err = some GoError.EOF then
        some (o.data, true)
      else
        (Merger.drain io o.r ps).map fun rest => (o.data ++ rest.1, rest.2)

/-- A stream in state `s` delivers the bytes `data` and then end-of-stream within `n`
calls of `Read` with non-empty buffers, and closes without error: each such call
either returns `io.EOF` together with all remaining bytes (and `Close` then returns
`nil`), or returns no error, a prefix of the remaining bytes, and leaves a stream that
delivers the rest within `n - 1` calls. -/
def DeliversWithin {σ : Type} (io : ReadCloser σ) : Nat → σ → List Byte → Prop
  | 0, _, _ => False
  | n + 1, s, data => ∀ p, 0 < p →
    ((io.Read s p).2.1 = some GoError.EOF ∧ (io.Read s p).1 = data ∧
      io.Close (io.Read s p).2.2 = none) ∨
    ((io.Read s p).2.1 = none ∧ ∃ rest, data = (io.Read s p).1 ++ rest ∧
      DeliversWithin io n (io.Read s p).2.2 rest)

/-- A provider opens successfully and its stream delivers `data`, then end-of-stream,
and closes without error. -/
def Provides {σ : Type} (io : ReadCloser σ) (d : downloadFunc σ) (data : List Byte) : Prop :=
  ∃ s n, d () = (some s, none) ∧ DeliversWithin io n s data

/-! ### The field `index` as a Go `int` -/

/-- The value of a Go `int` of `bits` bits (32 or 64, by platform) whose two's
complement bit pattern is `x % 2 ^ bits`. -/
def intValue (bits x : Nat) : Int :=
  if x % 2 ^ bits < 2 ^ (bits - 1) then ((x % 2 ^ bits : Nat) : Int)
  else ((x % 2 ^ bits : Nat) : Int) - ((2 ^ bits : Nat) : Int)

/-- The method `Merger.next` with `index` as an `int` of `bits` bits: `r.index++` wraps
around, the comparison with `len(r.downloads)` is signed, and `r.downloads[r.index]`
with a negative index is the run-time panic "index out of range", here `none`. -/
def Merger.nextInt {σ : Type} (bits : Nat) (r : Merger σ) :
    Option (Option GoError × Merger σ × List Event) :=
  if h1 : intValue bits r.index ≥ r.downloads.length then
    some (none, { r with current := none, index := (r.index + 1) % 2 ^ bits }, [])
  else if h2 : 0 ≤ intValue bits r.index then
    let out := r.downloads.get ⟨(intValue bits r.index).toNat, by omega⟩ ()
    some (out.2, { r with current := out.1, index := (r.index + 1) % 2 ^ bits },
      [Event.invoke (intValue bits r.index).toNat out.1.isSome])
  else none

/-- How a call of `Merger.Read` ends when a run-time panic is possible: it returns,
or it panics (before any change to the receiver and before any call). -/
inductive Outcome (σ : Type) where
  | returned (o : ReadResult σ) : Outcome σ
  | panicked : Outcome σ

/-- Prefixing the observed calls of an outcome. -/
def Outcome.after {σ : Type} (events : List Event) : Outcome σ → Outcome σ
  | Outcome.returned o => Outcome.returned (ReadResult.after events o)
  | Outcome.panicked => Outcome.panicked

/-- The `for` loop of `Merger.Read` over `Merger.nextInt`, run for at most `fuel`
iterations; `none` when the iterations run out before the call ends. -/
def Merger.ReadInt.loop {σ : Type} (bits : Nat) (io : ReadCloser σ) (p : Nat) :
    Nat → Merger σ → Option (Outcome σ)
  | 0, _ => none
  | fuel + 1, r =>
    match r.err with
    | some e => some (Outcome.returned ⟨[], some e, r, []⟩)
    | none =>
      match r.current with
      | some current => some (Outcome.returned (Merger.readCurrent io r current p))
      | none =>
        match r.nextInt bits with
        | none => some Outcome.panicked
        | some nxt =>
          match nxt.1 with
          | some err => some (Outcome.returned ⟨[], some err, nxt.2.1, nxt.2.2⟩)
          | none =>
            match nxt.2.1.current with
            | none => some (Outcome.returned ⟨[], some GoError.EOF, nxt.2.1, nxt.2.2⟩)
            | some _ =>
              (Merger.ReadInt.loop bits io p fuel nxt.2.1).map (Outcome.after nxt.2.2)

/-- The method `Merger.Read` with `index` as an `int` of `bits` bits. -/
def Merger.ReadInt {σ : Type} (bits : Nat) (io : ReadCloser σ) (r : Merger σ) (p : Nat) :
    Option (Outcome σ) :=
  Merger.ReadInt.loop bits io p 2 r

/-- A sequence of `Merger.Read` calls with `index` as an `int` of `bits` bits, one for
each buffer length of the list, up to and including the first call that panics: what
each call returned, `none` standing for the panic. -/
def Merger.ReadsInt {σ : Type} (bits : Nat) (io : ReadCloser σ) :
    Merger σ → List Nat → Option (List (Option (List Byte × Option GoError)))
  | _, [] => some []
  | r, p :: ps =>
    match Merger.ReadInt bits io r p with
    | none => none
    | some Outcome.panicked => some [none]
    | some (Outcome.returned o) =>
      (Merger.ReadsInt bits io o.r ps).map fun rest => some (o.data, o.err) :: rest

/-! ### Specification vocabulary for the order of calls -/

/-- The indices of the providers invoked in a sequence of observed calls, in order. -/
def invoked (trace : List Event) : List Nat :=
  trace.filterMap fun e => match e with
    | Event.invoke i _ => some i
    | _ => none

/-- The number of streams opened in a sequence of observed calls. -/
def opens (trace : List Event) : Nat :=
  trace.countP fun e => match e with
    | Event.invoke _ true => true
    | _ => false

/-- The number of streams closed in a sequence of observed calls. -/
def closes (trace : List Event) : Nat :=
  trace.countP fun e => match e with
    | Event.close => true
    | _ => false

/-- The phases of the sequencing discipline: no stream open, a stream open and being
read, a stream that has returned end-of-stream and is not closed yet. -/
inductive Phase where
  | idle : Phase
  | streaming : Phase
  | closing : Phase
  deriving DecidableEq, Repr

/-- The state of the sequencing discipline: how many providers were invoked, and the
phase. -/
structure Monitor where
  next : Nat
  phase : Phase
  deriving DecidableEq, Repr

/-- One observed call checked against the sequencing discipline: a provider may be
invoked only with no stream open and only the next one in list order; a stream may be
read only while open and not yet at end-of-stream; it may be closed only after it
returned end-of-stream. -/
def Monitor.step (m : Monitor) : Event → Option Monitor
  | Event.invoke i opened =>
    if m.phase = Phase.idle ∧ i = m.next then
      some ⟨m.next + 1, if opened then Phase.streaming else Phase.idle⟩
    else none
  | Event.read eof =>
    if m.phase = Phase.streaming then
      some ⟨m.next, if eof then Phase.closing else Phase.streaming⟩
    else none
  | Event.close =>
    if m.phase = Phase.closing then some ⟨m.next, Phase.idle⟩ else none

/-- A sequence of observed calls checked against the sequencing discipline. -/
def Monitor.run : Monitor → List Event → Option Monitor
  | m, [] => some m
  | m, e :: es =>
    match m.step e with
    | none => none
    | some m2 => Monitor.run m2 es

/-- The number of streams the discipline holds open in a state: 0 or 1. -/
def Monitor.held (m : Monitor) : Nat := if m.phase = Phase.idle then 0 else 1

/-- The discipline state that matches a `Merger`: no sticky error, as many providers
invoked as `index` says (at most all of them), and a stream open exactly when
`current` is set. -/
def Tracks {σ : Type} (r : Merger σ) (m : Monitor) : Prop :=
  r.err = none ∧ m.next = min r.index r.downloads.length ∧
    m.phase = if r.current.isSome then Phase.streaming else Phase.idle

/-- A stream over an in-memory byte slice, in the manner of `bytes.Reader`: `Read`
stores up to `len(p)` of the remaining bytes, and returns `io.EOF` with no bytes once
none remain; `Close` returns `nil`. -/
def sliceReader : ReadCloser (List Byte) where
  Read := fun s p => if s = [] then ([], some GoError.EOF, []) else (s.take p, none, s.drop p)
  Close := fun _ => none

/-- A provider in the manner of `prepare` whose request succeeds with body `body`. -/
def okDownload (body : List Byte) : downloadFunc (List Byte) :=
  fun _ => (some body, none)

/-- A provider in the manner of `prepare` whose request fails: no stream, an error. -/
def failedDownload (msg : String) : downloadFunc (List Byte) :=
  fun _ => (none, some (GoError.WithStack (GoError.New msg)))

/-- Modelled from the spec: the struct `m3u8.MediaPlaylist`, whose declaration is in the
`m3u8` package; the fields are those of the spec's `MediaPlaylist` and of `TestMedia`
(`Type_` stands for the field `Type`). -/
structure MediaPlaylist where
  TargetDuration : Int
  Type_ : String
  Sequence : Int
  Ended : Bool
  Segments : List MediaSegment
  deriving DecidableEq, Repr

/-- Modelled from the spec: the input is newline-delimited; this cuts a text into its
lines. -/
def splitLines : List Char → List (List Char)
  | [] => [[]]
  | c :: cs =>
    if c = Char.ofNat 10 then [] :: splitLines cs
    else
      match splitLines cs with
      | [] => [[c]]
      | l :: ls => (c :: l) :: ls

/-- Modelled from the spec: a directive has the form `#EXT-X-...:value`; this gives
the `value` of a line that starts with the given tag, `none` for any other line. -/
def trimPrefix : List Char → List Char → Option (List Char)
  | [], line => some line
  | _ :: _, [] => none
  | t :: tag, c :: line => if t = c then trimPrefix tag line else none

/-- Modelled from the spec: the value of a decimal digit, `none` for any other
character. -/
def digitValue (c : Char) : Option Nat :=
  if 48 ≤ c.toNat ∧ c.toNat ≤ 57 then some (c.toNat - 48) else none

/-- Modelled from the spec: a non-negative integer in decimal, `none` when the text is
empty or holds anything but digits. -/
def parseDigits (cs : List Char) : Option Nat :=
  if cs = [] then none
  else cs.foldl (fun acc c =>
    match acc, digitValue c with
    | some n, some d => some (n * 10 + d)
    | _, _ => none) (some 0)

/-- Modelled from the spec: fractional seconds are preserved at millisecond
granularity; this gives the milliseconds of the digits after the decimal point (the
first three count), `none` when anything but digits follows the point. -/
def parseMillis (frac : List Char) : Option Nat :=
  match parseDigits ((frac ++ [Char.ofNat 48, Char.ofNat 48, Char.ofNat 48]).take 3),
      frac.all fun c => (digitValue c).isSome with
  | some ms, true => some ms
  | _, _ => none

/-- Modelled from the spec: duration parsing accepts integer and fractional seconds
and fails on what is not a non-negative number; the result is in nanoseconds. -/
def parseDuration (cs : List Char) : Option Int :=
  match parseDigits (cs.takeWhile fun c => c ≠ Char.ofNat 46),
      cs.dropWhile fun c => c ≠ Char.ofNat 46 with
  | some secs, [] => some (secs * Second)
  | some secs, _ :: frac =>
    match parseMillis frac with
    | some ms => some (secs * Second + ms * Millisecond)
    | none => none
  | none, _ => none

/-- Modelled from the spec: the state of the single forward pass of `m3u8.Media`: the
playlist fields read so far, the segment duration seen and not yet paired with a URI
line, and the duration and URL of the segments emitted so far, in order. -/
structure Media.State where
  TargetDuration : Int
  Type_ : String
  Sequence : Int
  Ended : Bool
  pending : Option Int
  entries : List (Int × String)

/-- Modelled from the spec: the effect of a directive line (a line starting with `#`)
of a media playlist. Recognized are the target duration, the playlist type, the
starting sequence number, the per-segment duration with its optional title, and the
end-of-list marker; any other such line is a comment. A duration that is not a
non-negative number is a parse error; the spec names no other failure of a directive,
so a sequence number that does not parse leaves the sequence as it is. -/
def Media.directive (st : Media.State) (line : List Char) : Except GoError Media.State :=
  match trimPrefix "#EXT-X-TARGETDURATION:".data line with
  | some v =>
    match parseDuration v with
    | some d => .ok { st with TargetDuration := d }
    | none => .error (GoError.New "m3u8: invalid target duration")
  | none =>
    match trimPrefix "#EXT-X-PLAYLIST-TYPE:".data line with
    | some v => .ok { st with Type_ := String.mk v }
    | none =>
      match trimPrefix "#EXT-X-MEDIA-SEQUENCE:".data line with
      | some v =>
        match parseDigits v with
        | some n => .ok { st with Sequence := n }
        | none => .ok st
      | none =>
        match trimPrefix "#EXTINF:".data line with
        | some v =>
          match parseDuration (v.takeWhile fun c => c ≠ Char.ofNat 44) with
          | some d => .ok { st with pending := some d }
          | none => .error (GoError.New "m3u8: invalid segment duration")
        | none =>
          match trimPrefix "#EXT-X-ENDLIST".data line with
          | some _ => .ok { st with Ended := true }
          | none => .ok st

/-- Modelled from the spec: one line of the forward pass of `m3u8.Media`. An empty
line is skipped; a line starting with `#` is a directive or a comment; any other line
is a URL, paired with the pending segment duration (which it consumes) and emitted as
a segment, or a parse error when no duration is pending. -/
def Media.step (st : Media.State) (line : List Char) : Except GoError Media.State :=
  if line = [] then .ok st
  else if line.head? = some (Char.ofNat 35) then Media.directive st line
  else
    match st.pending with
    | none => .error (GoError.New "m3u8: segment without duration")
    | some d => .ok { st with pending := none, entries := st.entries ++ [(d, String.mk line)] }

/-- Modelled from the spec: the forward pass of `m3u8.Media` over the lines after the
header, stopping at the first parse error. -/
def Media.scan : Media.State → List (List Char) → Except GoError Media.State
  | st, [] => .ok st
  | st, line :: rest =>
    match Media.step st line with
    | .error e => .error e
    | .ok st2 => Media.scan st2 rest

/-- Modelled from the spec: segment numbers are derived from the starting sequence
number and the position, never read from the input; this numbers the emitted segments
from `n` on. -/
def Media.number : Int → List (Int × String) → List MediaSegment
  | _, [] => []
  | n, (d, url) :: rest => ⟨d, n, url⟩ :: Media.number (n + 1) rest

/-- Modelled from the spec: the function `m3u8.Media` (`parseMedia`), which is in the
`m3u8` package, in the one-argument form `TestMedia` calls. The text must start with
the header line `#EXTM3U`; the lines after it are read in a single forward pass; no
partial playlist is returned on a parse error. -/
def Media (text : String) : Except GoError MediaPlaylist :=
  match splitLines text.data with
  | [] => .error (GoError.New "m3u8: missing header")
  | header :: rest =>
    if header = "#EXTM3U".data then
      match Media.scan ⟨0, "", 0, false, none, []⟩ rest with
      | .error e => .error e
      | .ok st => .ok ⟨st.TargetDuration, st.Type_, st.Sequence, st.Ended,
          Media.number st.Sequence st.entries⟩
    else .error (GoError.New "m3u8: missing header")

/-- The URI lines of a playlist text, in order: the lines after the header that are
neither empty nor start with `#`. -/
def uriLines (text : String) : List String :=
  (((splitLines text.data).drop 1).filter fun line =>
    line ≠ [] ∧ line.head? ≠ some (Char.ofNat 35)).map String.mk

/-- The playlist text of `TestMedia`. -/
def testMediaText : String :=
  "#EXTM3U\n#EXT-X-VERSION:3\n#EXT-X-TARGETDURATION:15\n#EXT-X-PLAYLIST-TYPE:EVENT\n#EXT-X-MEDIA-SEQUENCE:2\n#EXT-X-TWITCH-ELAPSED-SECS:0.000\n#EXT-X-TWITCH-TOTAL-SECS:578.690\n#EXTINF:11.5,\n0.ts\n#EXTINF:13\n1.ts\n#EXT-X-ENDLIST"

/-- The playlist `TestMedia` expects for `testMediaText`. -/
def testMediaPlaylist : MediaPlaylist :=
  ⟨15 * Second, "EVENT", 2, true,
    [⟨11 * Second + 500 * Millisecond, 2, "0.ts"⟩, ⟨13 * Second, 3, "1.ts"⟩]⟩

/-! ## Theorems: segment range selection -/

/-- C8: at `(0, 0)` the selector succeeds and returns the input list unchanged, for
every list (empty lists and zero-duration segments included). -/
theorem sliceSegments_zero_zero (segments : List MediaSegment) :
    sliceSegments segments 0 0 = .ok segments := by
  simp [sliceSegments]

theorem wrap64_of_range (x : Int) (h0 : 0 ≤ x) (h1 : x ≤ MaxInt64) : wrap64 x = x := by
  unfold wrap64 MaxInt64 at *
  omega

theorem totalDuration_nil : totalDuration [] = 0 := rfl

theorem totalDuration_cons (seg : MediaSegment) (rest : List MediaSegment) :
    totalDuration (seg :: rest) = seg.Duration + totalDuration rest := by
  simp [totalDuration]

theorem totalDuration_nonneg (segments : List MediaSegment)
    (h : ∀ seg ∈ segments, 0 ≤ seg.Duration) : 0 ≤ totalDuration segments := by
  induction segments with
  | nil => simp [totalDuration]
  | cons seg rest ih =>
    rw [totalDuration_cons]
    have h1 := h seg (by simp)
    have h2 := ih (fun s hs => h s (by simp [hs]))
    omega

theorem totalDuration_take_le (segments : List MediaSegment)
    (h : ∀ seg ∈ segments, 0 ≤ seg.Duration) (i : Nat) :
    totalDuration (segments.take i) ≤ totalDuration segments := by
  induction segments generalizing i with
  | nil => simp
  | cons seg rest ih =>
    cases i with
    | zero =>
      simp only [List.take_zero, totalDuration_nil]
      exact totalDuration_nonneg _ h
    | succ i =>
      simp only [List.take_succ_cons, totalDuration_cons]
      have := ih (fun s hs => h s (by simp [hs])) i
      omega

/-- The second loop computes the mathematical sum when that sum fits `int64`. -/
theorem sliceSegments_dur_eq (rest : List MediaSegment) (dur : Int)
    (hnn : ∀ seg ∈ rest, 0 ≤ seg.Duration) (h0 : 0 ≤ dur)
    (hmax : dur + totalDuration rest ≤ MaxInt64) :
    sliceSegments.dur rest dur = dur + totalDuration rest := by
  induction rest generalizing dur with
  | nil => simp [sliceSegments.dur, totalDuration]
  | cons seg tl ih =>
    have hd := hnn seg (by simp)
    have htl : ∀ s ∈ tl, 0 ≤ s.Duration := fun s hs => hnn s (by simp [hs])
    have ht := totalDuration_nonneg tl htl
    rw [totalDuration_cons] at hmax
    rw [sliceSegments.dur, wrap64_of_range _ (by omega) (by omega),
      ih _ htl (by omega) (by omega), totalDuration_cons]
    omega

/-- The first loop, when the first `k` segments end at or before `start`, segment `k`
(if any) ends after it, and every segment starts before `end_`: the loop appends
the list without its first `k` segments. -/
theorem sliceSegments_loop_drop (start end_ : Int) (rest : List MediaSegment)
    (slice : List MediaSegment) (segmentStart : Int) (k : Nat)
    (hnn : ∀ seg ∈ rest, 0 ≤ seg.Duration) (h0 : 0 ≤ segmentStart)
    (hmax : segmentStart + totalDuration rest ≤ MaxInt64)
    (hk : k ≤ rest.length)
    (hbefore : ∀ j, j < k → segmentStart + totalDuration (rest.take (j + 1)) ≤ start)
    (hafter : k < rest.length →
      segmentStart + totalDuration (rest.take (k + 1)) > start ∧
      ∀ i, i < rest.length → segmentStart + totalDuration (rest.take i) < end_) :
    sliceSegments.loop start end_ rest slice segmentStart = slice ++ rest.drop k := by
  induction rest generalizing slice segmentStart k with
  | nil => simp [sliceSegments.loop]
  | cons seg tl ih =>
    have hd := hnn seg (by simp)
    have htl : ∀ s ∈ tl, 0 ≤ s.Duration := fun s hs => hnn s (by simp [hs])
    have ht := totalDuration_nonneg tl htl
    rw [totalDuration_cons] at hmax
    have hw : wrap64 (segmentStart + seg.Duration) = segmentStart + seg.Duration :=
      wrap64_of_range _ (by omega) (by omega)
    cases k with
    | zero =>
      obtain ⟨h1, h2⟩ := hafter (by simp)
      simp only [Nat.zero_add, List.take_succ_cons, List.take_zero, totalDuration_cons,
        totalDuration_nil] at h1
      have h3 := h2 0 (by simp)
      simp only [List.take_zero, totalDuration_nil] at h3
      rw [sliceSegments.loop]
      simp only [hw]
      rw [if_neg (by omega), if_neg (by omega)]
      rw [ih (slice ++ [seg]) (segmentStart + seg.Duration) 0 htl (by omega) (by omega)
        (by omega) (by intro j hj; omega)]
      · simp
      · intro hlen
        refine ⟨?_, ?_⟩
        · have : 0 ≤ totalDuration (tl.take (0 + 1)) :=
            totalDuration_nonneg _ (fun s hs => htl s (List.mem_of_mem_take hs))
          omega
        · intro i hi
          have := h2 (i + 1) (by simpa using hi)
          simp only [List.take_succ_cons, totalDuration_cons] at this
          omega
    | succ k =>
      have h1 := hbefore 0 (by omega)
      simp only [Nat.zero_add, List.take_succ_cons, List.take_zero, totalDuration_cons,
        totalDuration_nil] at h1
      rw [sliceSegments.loop]
      simp only [hw]
      rw [if_pos (by omega)]
      rw [ih slice (segmentStart + seg.Duration) k htl (by omega) (by omega)
        (by simpa using hk)]
      · simp
      · intro j hj
        have := hbefore (j + 1) (by omega)
        simp only [List.take_succ_cons, totalDuration_cons] at this
        omega
      · intro hlen
        obtain ⟨h2, h3⟩ := hafter (by simpa using hlen)
        simp only [List.take_succ_cons, totalDuration_cons] at h2
        refine ⟨by omega, ?_⟩
        intro i hi
        have := h3 (i + 1) (by simpa using hi)
        simp only [List.take_succ_cons, totalDuration_cons] at this
        omega

theorem segmentStartAt_zero (segments : List MediaSegment) :
    segmentStartAt segments 0 = 0 := by
  simp [segmentStartAt, totalDuration]

theorem segmentStartAt_succ (segments : List MediaSegment) (i : Nat) :
    segmentStartAt segments (i + 1) = segmentEndAt segments i := rfl

theorem segmentEndAt_last (segments : List MediaSegment) (i : Nat)
    (h : segments.length ≤ i + 1) : segmentEndAt segments i = totalDuration segments := by
  unfold segmentEndAt
  rw [List.take_of_length_le h]

/-- With non-negative durations, if no segment overlaps a valid window then every
segment ends at or before `start`. -/
theorem segmentEndAt_le_of_no_overlap (segments : List MediaSegment) (start end_ : Int)
    (hs : 0 ≤ start) (hw : end_ = 0 ∨ start < end_)
    (hno : ∀ i, i < segments.length → ¬ overlapsWindow segments start end_ i)
    (i : Nat) (hi : i < segments.length) : segmentEndAt segments i ≤ start := by
  induction i with
  | zero =>
    have h := hno 0 hi
    unfold overlapsWindow at h
    rw [segmentStartAt_zero] at h
    by_contra hc
    exact h ⟨by omega, by omega⟩
  | succ i ih =>
    have h1 := ih (by omega)
    have h := hno (i + 1) hi
    unfold overlapsWindow at h
    rw [segmentStartAt_succ] at h
    by_contra hc
    exact h ⟨by omega, by omega⟩

/-- C6: when `start < 0` or `end < 0`, or when `end != 0` and `start >= end`, the
selector returns an error and no segments, and the error is the same for every
segment list (the empty one included): it depends on `start` and `end` alone. -/
theorem sliceSegments_fast_fail (start end_ : Int)
    (h : start < 0 ∨ end_ < 0 ∨ (end_ ≠ 0 ∧ start ≥ end_)) :
    ∀ segments : List MediaSegment,
      sliceSegments segments start end_ = .error
        (if start < 0 ∨ end_ < 0 then GoError.New "Negative timestamps are not allowed"
         else GoError.New "End timestamp is not after Start timestamp") := by
  intro segments
  unfold sliceSegments
  by_cases hneg : start < 0 ∨ end_ < 0
  · simp [hneg]
  · have h2 : start ≥ end_ ∧ end_ ≠ 0 := by
      rcases h with h | h | h
      · exact absurd (Or.inl h) hneg
      · exact absurd (Or.inr h) hneg
      · exact ⟨h.2, h.1⟩
    rw [if_neg hneg, if_pos h2, if_neg hneg]

theorem sliceSegments_fast_fail_witness :
    ((5 : Int) < 0 ∨ (3 : Int) < 0 ∨ ((3 : Int) ≠ 0 ∧ (5 : Int) ≥ 3)) ∧
    ∀ segments : List MediaSegment,
      sliceSegments segments 5 3 = .error
        (if (5 : Int) < 0 ∨ (3 : Int) < 0 then
          GoError.New "Negative timestamps are not allowed"
         else GoError.New "End timestamp is not after Start timestamp") :=
  ⟨by decide, sliceSegments_fast_fail 5 3 (by decide)⟩

/-- C5: for non-negative durations and a valid window other than `(0, 0)` (`start >= 0`,
and `end = 0` or `start < end`; `start` being an `int64`), if no segment overlaps the
window the selector fails and the error carries the sum of all durations; this is so
in particular whenever `start` is at or beyond that sum. -/
theorem sliceSegments_empty_selection (segments : List MediaSegment) (start end_ : Int)
    (hnn : ∀ seg ∈ segments, 0 ≤ seg.Duration)
    (hs : 0 ≤ start) (hsmax : start ≤ MaxInt64)
    (hw : end_ = 0 ∨ start < end_) (hne : ¬ (start = 0 ∧ end_ = 0)) :
    ((∀ i, i < segments.length → ¬ overlapsWindow segments start end_ i) →
      sliceSegments segments start end_ = .error (notSubsetError (totalDuration segments))) ∧
    (totalDuration segments ≤ start →
      sliceSegments segments start end_ = .error (notSubsetError (totalDuration segments))) := by
  have key : (∀ i, i < segments.length → segmentEndAt segments i ≤ start) →
      sliceSegments segments start end_ =
        .error (notSubsetError (totalDuration segments)) := by
    intro hend
    have htot : totalDuration segments ≤ start := by
      cases hlen : segments.length with
      | zero =>
        have : segments = [] := List.length_eq_zero.mp hlen
        subst this
        simpa [totalDuration] using hs
      | succ n =>
        have := hend n (by omega)
        rwa [segmentEndAt_last segments n (by omega)] at this
    have hloop : ∀ e, sliceSegments.loop start e segments [] 0 = [] := by
      intro e
      rw [sliceSegments_loop_drop start e segments [] 0 segments.length hnn (by omega)
        (by omega) (by omega)]
      · simp
      · intro j hj
        have := hend j hj
        unfold segmentEndAt at this
        omega
      · intro h
        omega
    have hdur := sliceSegments_dur_eq segments 0 hnn (by omega) (by omega)
    unfold sliceSegments
    have h1 : ¬ (start < 0 ∨ end_ < 0) := by omega
    have h2 : ¬ (start ≥ end_ ∧ end_ ≠ 0) := by omega
    rw [if_neg h1, if_neg h2, if_neg hne]
    simp only [hloop, List.length_nil, if_true, hdur, notSubsetError, zero_add]
  refine ⟨fun hno => key (segmentEndAt_le_of_no_overlap segments start end_ hs hw hno), ?_⟩
  intro htot
  apply key
  intro i _
  have := totalDuration_take_le segments hnn (i + 1)
  unfold segmentEndAt
  omega

theorem sliceSegments_empty_selection_witness :
    sliceSegments scenarioSegments (30 * Second) 0 =
      .error (notSubsetError (24 * Second + 500 * Millisecond)) :=
  (sliceSegments_empty_selection scenarioSegments (30 * Second) 0 (by decide) (by decide)
    (by decide) (by decide) (by decide)).2 (by decide)

/-- C7, as amended: for `start > 0` and `end = 0`, non-negative durations whose sum
does not overflow `int64` and with every segment starting strictly before
`math.MaxInt64`, if segment `k` is the first whose cumulative end is greater than
`start`, the selector succeeds and returns the suffix of the list from segment `k`
through the last segment. -/
theorem sliceSegments_unbounded_end (segments : List MediaSegment) (start : Int) (k : Nat)
    (hnn : ∀ seg ∈ segments, 0 ≤ seg.Duration)
    (hmax : totalDuration segments ≤ MaxInt64)
    (hstarts : ∀ i, i < segments.length → segmentStartAt segments i < MaxInt64)
    (hs : 0 < start) (hk : k < segments.length)
    (hkend : segmentEndAt segments k > start)
    (hfirst : ∀ j, j < k → segmentEndAt segments j ≤ start) :
    sliceSegments segments start 0 = .ok (segments.drop k) := by
  have hloop := sliceSegments_loop_drop start MaxInt64 segments [] 0 k hnn (by omega)
    (by omega) (by omega)
    (by intro j hj; have := hfirst j hj; unfold segmentEndAt at this; omega)
    (by
      intro _
      refine ⟨by unfold segmentEndAt at hkend; omega, ?_⟩
      intro i hi
      have := hstarts i hi
      unfold segmentStartAt at this
      omega)
  have hlen : (segments.drop k).length ≠ 0 := by
    rw [List.length_drop]; omega
  unfold sliceSegments
  have h1 : ¬ (start < 0 ∨ (0 : Int) < 0) := by omega
  have h2 : ¬ (start ≥ 0 ∧ (0 : Int) ≠ 0) := by omega
  have h3 : ¬ (start = 0 ∧ (0 : Int) = 0) := by omega
  rw [if_neg h1, if_neg h2, if_neg h3]
  simp only [if_true, hloop, List.nil_append]
  rw [if_neg hlen]

theorem sliceSegments_unbounded_end_witness :
    sliceSegments scenarioSegments (12 * Second) 0 = .ok (scenarioSegments.drop 1) :=
  sliceSegments_unbounded_end scenarioSegments (12 * Second) 1 (by decide) (by decide)
    (by decide) (by decide) (by decide) (by decide) (by decide)

/-- C7 as stated fails: with durations `math.MaxInt64` and `0` (non-negative, sum
not overflowing `int64`), `start = 1` and `end = 0`, the first segment ends after
`start`, yet the selector returns only the first segment, not the whole list. -/
theorem sliceSegments_unbounded_end_counterexample :
    ¬ (∀ (segments : List MediaSegment) (start : Int) (k : Nat),
        (∀ seg ∈ segments, 0 ≤ seg.Duration) →
        totalDuration segments ≤ MaxInt64 →
        0 < start → k < segments.length →
        segmentEndAt segments k > start →
        (∀ j, j < k → segmentEndAt segments j ≤ start) →
        sliceSegments segments start 0 = .ok (segments.drop k)) := by
  intro h
  have h1 := h maxedSegments 1 0 (by decide) (by decide) (by decide) (by decide)
    (by decide) (by decide)
  have h2 : sliceSegments maxedSegments 1 0 = .ok [⟨MaxInt64, 0, "0.ts"⟩] := by rfl
  rw [h2] at h1
  simp [maxedSegments] at h1

theorem overlappingFrom_of_ge (start end_ : Int) (rest : List MediaSegment)
    (segmentStart : Int) (hnn : ∀ seg ∈ rest, 0 ≤ seg.Duration) (h : segmentStart ≥ end_) :
    overlappingFrom start end_ segmentStart rest = [] := by
  induction rest generalizing segmentStart with
  | nil => rfl
  | cons seg tl ih =>
    have hd := hnn seg (by simp)
    rw [overlappingFrom, if_neg (by omega)]
    exact ih _ (fun s hs => hnn s (by simp [hs])) (by omega)

/-- The first loop appends exactly the segments that pass the inclusion test, as long
as the running sums stay within `int64`. -/
theorem sliceSegments_loop_eq (start end_ : Int) (rest : List MediaSegment)
    (slice : List MediaSegment) (segmentStart : Int)
    (hnn : ∀ seg ∈ rest, 0 ≤ seg.Duration) (h0 : 0 ≤ segmentStart)
    (hmax : segmentStart + totalDuration rest ≤ MaxInt64) :
    sliceSegments.loop start end_ rest slice segmentStart =
      slice ++ overlappingFrom start end_ segmentStart rest := by
  induction rest generalizing slice segmentStart with
  | nil => simp [sliceSegments.loop, overlappingFrom]
  | cons seg tl ih =>
    have hd := hnn seg (by simp)
    have htl : ∀ s ∈ tl, 0 ≤ s.Duration := fun s hs => hnn s (by simp [hs])
    have ht := totalDuration_nonneg tl htl
    rw [totalDuration_cons] at hmax
    have hw : wrap64 (segmentStart + seg.Duration) = segmentStart + seg.Duration :=
      wrap64_of_range _ (by omega) (by omega)
    rw [sliceSegments.loop]
    simp only [hw]
    by_cases h1 : segmentStart + seg.Duration ≤ start
    · rw [if_pos h1, overlappingFrom, if_neg (by omega)]
      exact ih _ _ htl (by omega) (by omega)
    · rw [if_neg h1]
      by_cases h2 : segmentStart ≥ end_
      · rw [if_pos h2, overlappingFrom, if_neg (by omega),
          overlappingFrom_of_ge _ _ _ _ htl (by omega)]
        simp
      · rw [if_neg h2, overlappingFrom, if_pos (by omega),
          ih _ _ htl (by omega) (by omega)]
        simp

theorem totalDuration_append (xs ys : List MediaSegment) :
    totalDuration (xs ++ ys) = totalDuration xs + totalDuration ys := by
  simp [totalDuration]

/-- The index form of the inclusion test agrees with its recursive form. -/
theorem overlapping_eq_from (start end_ : Int) (pre rest : List MediaSegment) :
    ((List.range rest.length).filterMap fun i =>
      if overlaps (pre ++ rest) start end_ (pre.length + i) then
        (pre ++ rest)[pre.length + i]? else none) =
    overlappingFrom start end_ (totalDuration pre) rest := by
  induction rest generalizing pre with
  | nil => simp [overlappingFrom]
  | cons seg tl ih =>
    have hrec := ih (pre ++ [seg])
    simp only [List.append_assoc, List.singleton_append, List.length_append,
      List.length_singleton, totalDuration_append, totalDuration_cons, totalDuration_nil,
      add_zero] at hrec
    have hstart : segmentStartAt (pre ++ seg :: tl) pre.length = totalDuration pre := by
      simp [segmentStartAt]
    have hend : segmentEndAt (pre ++ seg :: tl) pre.length =
        totalDuration pre + seg.Duration := by
      unfold segmentEndAt
      rw [List.take_append_eq_append_take, List.take_of_length_le (by omega)]
      simp [totalDuration_append, totalDuration_cons, totalDuration_nil]
    rw [List.length_cons, List.range_succ_eq_map, List.filterMap_cons, List.filterMap_map,
      overlappingFrom]
    simp only [Nat.add_zero, overlaps, hstart, hend, List.getElem?_append_right (le_refl _),
      Nat.sub_self, List.getElem?_cons_zero]
    have hfun : ((fun i => if segmentEndAt (pre ++ seg :: tl) (pre.length + i) > start ∧
          segmentStartAt (pre ++ seg :: tl) (pre.length + i) < end_ then
          (pre ++ seg :: tl)[pre.length + i]? else none) ∘ Nat.succ) =
        fun i => if overlaps (pre ++ seg :: tl) start end_ (pre.length + 1 + i) then
          (pre ++ seg :: tl)[pre.length + 1 + i]? else none := by
      funext i
      simp only [Function.comp, Nat.succ_eq_add_one, overlaps]
      have : pre.length + (i + 1) = pre.length + 1 + i := by omega
      rw [this]
    by_cases hc : totalDuration pre + seg.Duration > start ∧ totalDuration pre < end_
    · simp only [hc, and_self, if_true]
      rw [hfun, hrec]
    · simp only [hc, if_false]
      rw [hfun, hrec]

/-- C3: for non-negative durations whose sum does not overflow `int64` and a window
`0 <= start < end`, if at least one segment satisfies
`segmentEnd > start && segmentStart < end`, the selector succeeds and returns exactly
the segments satisfying that test, whole and in their original order. -/
theorem sliceSegments_overlap_selection (segments : List MediaSegment) (start end_ : Int)
    (hnn : ∀ seg ∈ segments, 0 ≤ seg.Duration)
    (hmax : totalDuration segments ≤ MaxInt64)
    (hs : 0 ≤ start) (hw : start < end_)
    (hex : ∃ i, i < segments.length ∧ overlaps segments start end_ i) :
    sliceSegments segments start end_ = .ok (overlapping segments start end_) := by
  have hov : overlapping segments start end_ = overlappingFrom start end_ 0 segments := by
    have := overlapping_eq_from start end_ [] segments
    simpa [overlapping, totalDuration_nil] using this
  have hloop := sliceSegments_loop_eq start end_ segments [] 0 hnn (by omega) (by omega)
  rw [List.nil_append, ← hov] at hloop
  have hlen : (overlapping segments start end_).length ≠ 0 := by
    obtain ⟨i, hi, ho⟩ := hex
    have hmem : segments[i] ∈ overlapping segments start end_ := by
      unfold overlapping
      rw [List.mem_filterMap]
      exact ⟨i, List.mem_range.mpr hi, by simp [ho, hi]⟩
    intro h0
    rw [List.length_eq_zero] at h0
    rw [h0] at hmem
    simp at hmem
  unfold sliceSegments
  have h1 : ¬ (start < 0 ∨ end_ < 0) := by omega
  have h2 : ¬ (start ≥ end_ ∧ end_ ≠ 0) := by omega
  have h3 : ¬ (start = 0 ∧ end_ = 0) := by omega
  have h4 : ¬ (end_ = 0) := by omega
  rw [if_neg h1, if_neg h2, if_neg h3]
  simp only [if_neg h4, hloop]
  rw [if_neg hlen]

theorem sliceSegments_overlap_selection_witness :
    sliceSegments scenarioSegments (5 * Second) (20 * Second) = .ok scenarioSegments :=
  sliceSegments_overlap_selection scenarioSegments (5 * Second) (20 * Second) (by decide)
    (by decide) (by decide) (by decide) ⟨0, by decide, by decide⟩

/-! ## Theorems: the sequential merging reader -/

section ReadLemmas

variable {σ : Type} (io : ReadCloser σ)

theorem Merger.Read_loop_of_err (r : Merger σ) (p fuel : Nat) (e : GoError)
    (h : r.err = some e) :
    Merger.Read.loop io p (fuel + 1) r = some ⟨[], some e, r, []⟩ := by
  simp [Merger.Read.loop, h]

theorem Merger.Read_loop_of_current (r : Merger σ) (p fuel : Nat) (c : σ)
    (h1 : r.err = none) (h2 : r.current = some c) :
    Merger.Read.loop io p (fuel + 1) r = some (Merger.readCurrent io r c p) := by
  simp only [Merger.Read.loop, h1, h2]

theorem Merger.Read_of_err (r : Merger σ) (p : Nat) (e : GoError) (h : r.err = some e) :
    Merger.Read io r p = some ⟨[], some e, r, []⟩ :=
  Merger.Read_loop_of_err io r p 1 e h

theorem Merger.Read_of_current (r : Merger σ) (p : Nat) (c : σ)
    (h1 : r.err = none) (h2 : r.current = some c) :
    Merger.Read io r p = some (Merger.readCurrent io r c p) :=
  Merger.Read_loop_of_current io r p 1 c h1 h2

theorem Merger.Read_of_exhausted (r : Merger σ) (p : Nat)
    (h1 : r.err = none) (h2 : r.current = none) (h3 : r.downloads.length ≤ r.index) :
    Merger.Read io r p =
      some ⟨[], some GoError.EOF, { r with current := none, index := r.index + 1 }, []⟩ := by
  simp [Merger.Read, Merger.Read.loop, h1, h2, Merger.next, h3]

theorem Merger.Read_of_invoke (r : Merger σ) (p : Nat)
    (h1 : r.err = none) (h2 : r.current = none) (h3 : r.index < r.downloads.length) :
    Merger.Read io r p =
      match (r.downloads.get ⟨r.index, h3⟩ ()).2 with
      | some e => some ⟨[], some e,
          { r with current := (r.downloads.get ⟨r.index, h3⟩ ()).1, index := r.index + 1 },
          [Event.invoke r.index (r.downloads.get ⟨r.index, h3⟩ ()).1.isSome]⟩
      | none =>
        match (r.downloads.get ⟨r.index, h3⟩ ()).1 with
        | none => some ⟨[], some GoError.EOF,
            { r with current := none, index := r.index + 1 },
            [Event.invoke r.index false]⟩
        | some c => some (ReadResult.after [Event.invoke r.index true]
            (Merger.readCurrent io { r with current := some c, index := r.index + 1 } c p)) := by
  have h4 : ¬ r.index ≥ r.downloads.length := by omega
  simp only [Merger.Read, Merger.Read.loop, h1, h2, Merger.next, h4, dite_false]
  cases hB : (r.downloads.get ⟨r.index, h3⟩ ()).2 with
  | some e => simp
  | none =>
    cases hA : (r.downloads.get ⟨r.index, h3⟩ ()).1 with
    | none => simp
    | some c =>
      simp only [Option.isSome_some, Option.map_eq_some', Merger.readCurrent]
      split <;> simp

/-- Two iterations of the loop of `Merger.Read` always reach a `return`. -/
theorem Merger.Read_returns (r : Merger σ) (p : Nat) : ∃ o, Merger.Read io r p = some o := by
  cases h1 : r.err with
  | some e => exact ⟨_, Merger.Read_of_err io r p e h1⟩
  | none =>
    cases h2 : r.current with
    | some c => exact ⟨_, Merger.Read_of_current io r p c h1 h2⟩
    | none =>
      by_cases h3 : r.index < r.downloads.length
      · rw [Merger.Read_of_invoke io r p h1 h2 h3]
        split
        · exact ⟨_, rfl⟩
        · split
          · exact ⟨_, rfl⟩
          · exact ⟨_, rfl⟩
      · exact ⟨_, Merger.Read_of_exhausted io r p h1 h2 (by omega)⟩

/-- More than two iterations change nothing: the loop has returned by then. -/
theorem Merger.Read_loop_stable (r : Merger σ) (p k : Nat) :
    Merger.Read.loop io p (k + 2) r = Merger.Read io r p := by
  cases h1 : r.err with
  | some e => rw [Merger.Read_of_err io r p e h1, Merger.Read_loop_of_err io r p (k + 1) e h1]
  | none =>
    cases h2 : r.current with
    | some c =>
      rw [Merger.Read_of_current io r p c h1 h2,
        Merger.Read_loop_of_current io r p (k + 1) c h1 h2]
    | none =>
      simp only [Merger.Read, Merger.Read.loop, h1, h2]
      split
      · rfl
      · split
        · rfl
        · rename_i hn c hc
          have he : (r.next).2.1.err = none := by
            unfold Merger.next
            split <;> exact h1
          simp only [he, hc]

theorem errors_WithStack_ne_EOF (x : Option GoError) :
    errors_WithStack x ≠ some GoError.EOF := by
  cases x <;> simp [errors_WithStack]

theorem Merger.readCurrent_err_ne_EOF (r : Merger σ) (c : σ) (p : Nat) :
    (Merger.readCurrent io r c p).err ≠ some GoError.EOF := by
  unfold Merger.readCurrent
  simp only
  split <;> exact errors_WithStack_ne_EOF _

theorem Merger.readCurrent_downloads (r : Merger σ) (c : σ) (p : Nat) :
    (Merger.readCurrent io r c p).r.downloads = r.downloads := by
  unfold Merger.readCurrent
  simp only
  split <;> rfl

theorem Merger.readCurrent_err_field (r : Merger σ) (c : σ) (p : Nat) :
    (Merger.readCurrent io r c p).r.err = r.err := by
  unfold Merger.readCurrent
  simp only
  split <;> rfl

theorem Merger.readCurrent_index (r : Merger σ) (c : σ) (p : Nat) :
    (Merger.readCurrent io r c p).r.index = r.index := by
  unfold Merger.readCurrent
  simp only
  split <;> rfl

/-- A call of `Merger.Read` changes neither the providers nor the field `err`. -/
theorem Merger.Read_preserves (r : Merger σ) (p : Nat) (o : ReadResult σ)
    (ho : Merger.Read io r p = some o) :
    o.r.downloads = r.downloads ∧ o.r.err = r.err := by
  cases h1 : r.err with
  | some e =>
    rw [Merger.Read_of_err io r p e h1] at ho
    cases ho
    exact ⟨rfl, h1⟩
  | none =>
    cases h2 : r.current with
    | some c =>
      rw [Merger.Read_of_current io r p c h1 h2] at ho
      cases ho
      exact ⟨Merger.readCurrent_downloads io r c p,
        (Merger.readCurrent_err_field io r c p).trans h1⟩
    | none =>
      by_cases h3 : r.index < r.downloads.length
      · rw [Merger.Read_of_invoke io r p h1 h2 h3] at ho
        split at ho
        · cases ho; exact ⟨rfl, h1⟩
        · split at ho
          · cases ho; exact ⟨rfl, h1⟩
          · cases ho
            simp only [ReadResult.after]
            exact ⟨Merger.readCurrent_downloads io _ _ p,
              (Merger.readCurrent_err_field io _ _ p).trans h1⟩
      · rw [Merger.Read_of_exhausted io r p h1 h2 (by omega)] at ho
        cases ho
        exact ⟨rfl, h1⟩

theorem Merger.Reads_cons (r : Merger σ) (p : Nat) (ps : List Nat) (o : ReadResult σ)
    (run : RunResult σ) (ho : Merger.Read io r p = some o)
    (hrun : Merger.Reads io o.r ps = some run) :
    Merger.Reads io r (p :: ps) =
      some ⟨(o.data, o.err) :: run.outs, run.r, o.trace ++ run.trace⟩ := by
  simp only [Merger.Reads, ho, hrun]

/-- A sequence of `Merger.Read` calls always returns. -/
theorem Merger.Reads_returns (r : Merger σ) (ps : List Nat) :
    ∃ run, Merger.Reads io r ps = some run := by
  induction ps generalizing r with
  | nil => exact ⟨_, rfl⟩
  | cons p ps ih =>
    obtain ⟨o, ho⟩ := Merger.Read_returns io r p
    obtain ⟨run, hrun⟩ := ih o.r
    exact ⟨_, Merger.Reads_cons io r p ps o run ho hrun⟩

/-- A sequence of `Merger.Read` calls changes neither the providers nor `err`. -/
theorem Merger.Reads_preserves (r : Merger σ) (ps : List Nat) (run : RunResult σ)
    (hrun : Merger.Reads io r ps = some run) :
    run.r.downloads = r.downloads ∧ run.r.err = r.err := by
  induction ps generalizing r run with
  | nil =>
    simp only [Merger.Reads, Option.some.injEq] at hrun
    subst hrun
    exact ⟨rfl, rfl⟩
  | cons p ps ih =>
    obtain ⟨o, ho⟩ := Merger.Read_returns io r p
    obtain ⟨run2, hrun2⟩ := Merger.Reads_returns io o.r ps
    rw [Merger.Reads_cons io r p ps o run2 ho hrun2, Option.some.injEq] at hrun
    subst hrun
    have h1 := Merger.Read_preserves io r p o ho
    have h2 := ih o.r run2 hrun2
    exact ⟨h2.1.trans h1.1, h2.2.trans h1.2⟩

theorem Merger.readCurrent_of_EOF (r : Merger σ) (c : σ) (p : Nat)
    (h : (io.Read c p).2.1 = some GoError.EOF) :
    Merger.readCurrent io r c p =
      ⟨(io.Read c p).1, errors_WithStack (io.Close (io.Read c p).2.2),
        { r with current := none }, [Event.read true, Event.close]⟩ := by
  simp [Merger.readCurrent, h]

theorem Merger.readCurrent_of_not_EOF (r : Merger σ) (c : σ) (p : Nat)
    (h : (io.Read c p).2.1 ≠ some GoError.EOF) :
    Merger.readCurrent io r c p =
      ⟨(io.Read c p).1, errors_WithStack (io.Read c p).2.1,
        { r with current := some (io.Read c p).2.2 }, [Event.read false]⟩ := by
  simp [Merger.readCurrent, h]

theorem Merger.drain_cons (r : Merger σ) (p : Nat) (ps : List Nat) (o : ReadResult σ)
    (ho : Merger.Read io r p = some o) :
    Merger.drain io r (p :: ps) =
      if o.err = some GoError.EOF then some (o.data, true)
      else (Merger.drain io o.r ps).map fun rest => (o.data ++ rest.1, rest.2) := by
  simp only [Merger.drain, ho]

/-- Draining a reader whose open stream delivers `data`: the bytes are `data` followed
by what draining yields once that stream is closed. -/
theorem Merger.drain_stream (n : Nat) (r : Merger σ) (s : σ) (data rest : List Byte) (B : Nat)
    (h1 : r.err = none) (h2 : r.current = some s) (hdel : DeliversWithin io n s data)
    (hcont : ∀ ps : List Nat, (∀ p ∈ ps, 0 < p) → B ≤ ps.length →
      Merger.drain io { r with current := none } ps = some (rest, true))
    (ps : List Nat) (hpos : ∀ p ∈ ps, 0 < p) (hlen : n + B ≤ ps.length) :
    Merger.drain io r ps = some (data ++ rest, true) := by
  induction n generalizing r s data ps with
  | zero => exact absurd hdel (by simp [DeliversWithin])
  | succ n ih =>
    cases ps with
    | nil => simp at hlen
    | cons p ps =>
      have hp : 0 < p := hpos p (by simp)
      have hps : ∀ q ∈ ps, 0 < q := fun q hq => hpos q (by simp [hq])
      simp only [List.length_cons] at hlen
      rw [Merger.drain_cons io r p ps _ (Merger.Read_of_current io r p s h1 h2)]
      rw [if_neg (Merger.readCurrent_err_ne_EOF io r s p)]
      rcases hdel p hp with ⟨heof, hdata, hclose⟩ | ⟨hnone, rest2, hsplit, hrec⟩
      · rw [Merger.readCurrent_of_EOF io r s p heof]
        simp only
        rw [hcont ps hps (by omega), hdata]
        rfl
      · rw [Merger.readCurrent_of_not_EOF io r s p (by rw [hnone]; simp)]
        simp only
        rw [ih { r with current := some (io.Read s p).2.2 } (io.Read s p).2.2 rest2 h1 rfl
          hrec hcont ps hps (by omega), hsplit]
        simp

/-- Draining does not depend on whether the next provider has just been invoked with
success or is about to be. -/
theorem Merger.drain_invoke (r : Merger σ) (s : σ) (ps : List Nat)
    (h1 : r.err = none) (h2 : r.current = none) (h3 : r.index < r.downloads.length)
    (hs : r.downloads.get ⟨r.index, h3⟩ () = (some s, none)) :
    Merger.drain io r ps =
      Merger.drain io { r with current := some s, index := r.index + 1 } ps := by
  cases ps with
  | nil => rfl
  | cons p ps =>
    have hR := Merger.Read_of_invoke io r p h1 h2 h3
    simp only [hs] at hR
    rw [Merger.drain_cons io r p ps _ hR,
      Merger.drain_cons io { r with current := some s, index := r.index + 1 } p ps _
        (Merger.Read_of_current io { r with current := some s, index := r.index + 1 } p s
          h1 rfl)]
    rfl

/-- Draining a reader with no stream open yields the bytes of the remaining providers,
in list order, when each of them opens, delivers and closes without error. -/
theorem Merger.drain_providers (datas : List (List Byte)) (r : Merger σ)
    (h1 : r.err = none) (h2 : r.current = none)
    (hall : List.Forall₂ (Provides io) (r.downloads.drop r.index) datas) :
    ∃ B, ∀ ps : List Nat, (∀ p ∈ ps, 0 < p) → B ≤ ps.length →
      Merger.drain io r ps = some (datas.flatten, true) := by
  induction datas generalizing r with
  | nil =>
    have hdrop : r.downloads.drop r.index = [] := List.forall₂_nil_right_iff.mp hall
    have h3 : r.downloads.length ≤ r.index := List.drop_eq_nil_iff.mp hdrop
    refine ⟨1, ?_⟩
    intro ps _ hlen
    cases ps with
    | nil => simp at hlen
    | cons p ps =>
      rw [Merger.drain_cons io r p ps _ (Merger.Read_of_exhausted io r p h1 h2 h3)]
      simp
  | cons data datas ih =>
    cases hdrop : r.downloads.drop r.index with
    | nil => rw [hdrop] at hall; cases hall
    | cons d rest =>
      rw [hdrop] at hall
      cases hall with
      | cons hd hrest =>
        have h3 : r.index < r.downloads.length := by
          by_contra hc
          rw [List.drop_eq_nil_iff.mpr (by omega)] at hdrop
          cases hdrop
        rw [List.drop_eq_getElem_cons h3] at hdrop
        injection hdrop with hget hdrop2
        obtain ⟨s, n, hs, hdel⟩ := hd
        have hs2 : r.downloads.get ⟨r.index, h3⟩ () = (some s, none) := by
          rw [List.get_eq_getElem, hget]; exact hs
        obtain ⟨B, hB⟩ := ih { r with current := none, index := r.index + 1 } h1 rfl
          (by simpa [hdrop2] using hrest)
        refine ⟨n + B, ?_⟩
        intro ps hpos hlen
        rw [Merger.drain_invoke io r s ps h1 h2 h3 hs2]
        rw [Merger.drain_stream io n { r with current := some s, index := r.index + 1 } s data
          datas.flatten B h1 rfl hdel hB ps hpos hlen]
        simp

/-- The in-memory stream delivers its bytes and then end-of-stream. -/
theorem sliceReader_delivers (n : Nat) (body : List Byte) (h : body.length < n) :
    DeliversWithin sliceReader n body body := by
  induction n generalizing body with
  | zero => omega
  | succ n ih =>
    intro p hp
    by_cases hb : body = []
    · left
      simp [sliceReader, hb]
    · right
      refine ⟨by simp [sliceReader, hb], body.drop p, by simp [sliceReader, hb], ?_⟩
      have hlen : (body.drop p).length < n := by
        have : 0 < body.length := List.length_pos.mpr hb
        rw [List.length_drop]; omega
      simpa [sliceReader, hb] using ih (body.drop p) hlen

theorem okDownload_provides (body : List Byte) :
    Provides sliceReader (okDownload body) body :=
  ⟨body, body.length + 1, rfl, sliceReader_delivers _ body (by omega)⟩

end ReadLemmas

/-! ### The sequencing discipline -/

theorem Monitor.run_append (m : Monitor) (a b : List Event) :
    Monitor.run m (a ++ b) = (Monitor.run m a).bind fun m2 => Monitor.run m2 b := by
  induction a generalizing m with
  | nil => rfl
  | cons e a ih =>
    simp only [List.cons_append, Monitor.run]
    cases m.step e with
    | none => rfl
    | some m2 => exact ih m2

theorem Monitor.run_append_some (m st : Monitor) (a b : List Event)
    (h : Monitor.run m (a ++ b) = some st) :
    ∃ m2, Monitor.run m a = some m2 ∧ Monitor.run m2 b = some st := by
  rw [Monitor.run_append] at h
  cases ha : Monitor.run m a with
  | none => rw [ha] at h; cases h
  | some m2 => rw [ha] at h; exact ⟨m2, rfl, h⟩

theorem Monitor.run_singleton (m : Monitor) (e : Event) :
    Monitor.run m [e] = m.step e := by
  simp only [Monitor.run]
  cases m.step e <;> rfl

/-- The providers invoked along an accepted sequence are consecutive, from the first
one not yet invoked. -/
theorem Monitor.run_invoked (m st : Monitor) (trace : List Event)
    (h : Monitor.run m trace = some st) :
    m.next ≤ st.next ∧ invoked trace = List.range' m.next (st.next - m.next) := by
  induction trace generalizing m with
  | nil =>
    simp only [Monitor.run, Option.some.injEq] at h
    subst h
    simp [invoked]
  | cons e trace ih =>
    simp only [Monitor.run] at h
    cases hs : m.step e with
    | none => rw [hs] at h; cases h
    | some m2 =>
      rw [hs] at h
      obtain ⟨h1, h2⟩ := ih m2 h
      cases e with
      | invoke i opened =>
        simp only [Monitor.step] at hs
        split at hs
        · rename_i hc
          simp only [Option.some.injEq] at hs
          subst hs
          simp only at h1 h2
          refine ⟨by omega, ?_⟩
          have hk : st.next - m.next = (st.next - (m.next + 1)) + 1 := by omega
          rw [hk, List.range'_succ]
          simp only [invoked, List.filterMap_cons] at h2 ⊢
          rw [h2, hc.2]
        · cases hs
      | read eof =>
        simp only [Monitor.step] at hs
        split at hs
        · simp only [Option.some.injEq] at hs
          subst hs
          simp only at h1 h2
          exact ⟨h1, by simpa [invoked] using h2⟩
        · cases hs
      | close =>
        simp only [Monitor.step] at hs
        split at hs
        · simp only [Option.some.injEq] at hs
          subst hs
          simp only at h1 h2
          exact ⟨h1, by simpa [invoked] using h2⟩
        · cases hs

/-- Along an accepted sequence, streams opened and streams closed differ by the
streams held at the two ends. -/
theorem Monitor.run_held (m st : Monitor) (trace : List Event)
    (h : Monitor.run m trace = some st) :
    opens trace + m.held = closes trace + st.held := by
  induction trace generalizing m with
  | nil =>
    simp only [Monitor.run, Option.some.injEq] at h
    subst h
    simp [opens, closes]
  | cons e trace ih =>
    simp only [Monitor.run] at h
    cases hs : m.step e with
    | none => rw [hs] at h; cases h
    | some m2 =>
      rw [hs] at h
      have h1 := ih m2 h
      cases e with
      | invoke i opened =>
        simp only [Monitor.step] at hs
        split at hs
        · rename_i hc
          simp only [Option.some.injEq] at hs
          subst hs
          cases opened <;>
            simp [opens, closes, Monitor.held, hc.1, List.countP_cons] at h1 ⊢ <;> omega
        · cases hs
      | read eof =>
        simp only [Monitor.step] at hs
        split at hs
        · rename_i hc
          simp only [Option.some.injEq] at hs
          subst hs
          cases eof <;>
            simp [opens, closes, Monitor.held, hc, List.countP_cons] at h1 ⊢ <;> omega
        · cases hs
      | close =>
        simp only [Monitor.step] at hs
        split at hs
        · rename_i hc
          simp only [Option.some.injEq] at hs
          subst hs
          simp [opens, closes, Monitor.held, hc, List.countP_cons] at h1 ⊢
          omega
        · cases hs

/-- The form of an accepted sequence, by the phase it ends in: it ends with the calls
made for the last invoked provider. -/
theorem Monitor.run_shape (pre : List Event) (st : Monitor)
    (h : Monitor.run ⟨0, Phase.idle⟩ pre = some st) :
    (st.phase = Phase.idle →
      (st.next = 0 ∧ pre = []) ∨
      (∃ i pre0, st.next = i + 1 ∧ pre = pre0 ++ [Event.invoke i false]) ∨
      (∃ i pre0 n, st.next = i + 1 ∧ pre = pre0 ++ Event.invoke i true ::
        (List.replicate n (Event.read false) ++ [Event.read true, Event.close]))) ∧
    (st.phase = Phase.streaming →
      ∃ i pre0 n, st.next = i + 1 ∧
        pre = pre0 ++ Event.invoke i true :: List.replicate n (Event.read false)) ∧
    (st.phase = Phase.closing →
      ∃ i pre0 n, st.next = i + 1 ∧ pre = pre0 ++ Event.invoke i true ::
        (List.replicate n (Event.read false) ++ [Event.read true])) := by
  induction pre using List.reverseRecOn generalizing st with
  | nil =>
    simp only [Monitor.run, Option.some.injEq] at h
    subst h
    simp
  | append_singleton pre e ih =>
    obtain ⟨st0, h0, hstep⟩ := Monitor.run_append_some _ _ _ _ h
    rw [Monitor.run_singleton] at hstep
    obtain ⟨ihI, ihS, ihC⟩ := ih st0 h0
    cases e with
    | invoke i opened =>
      simp only [Monitor.step] at hstep
      split at hstep
      · rename_i hc
        simp only [Option.some.injEq] at hstep
        subst hstep
        cases opened with
        | false =>
          refine ⟨fun _ => Or.inr (Or.inl ⟨i, pre, by simp [hc.2], rfl⟩), ?_, ?_⟩
          · intro hp; simp at hp
          · intro hp; simp at hp
        | true =>
          refine ⟨?_, fun _ => ⟨i, pre, 0, by simp [hc.2], by simp⟩, ?_⟩
          · intro hp; simp at hp
          · intro hp; simp at hp
      · cases hstep
    | read eof =>
      simp only [Monitor.step] at hstep
      split at hstep
      · rename_i hc
        simp only [Option.some.injEq] at hstep
        subst hstep
        obtain ⟨i, pre0, n, hn, hpre⟩ := ihS hc
        cases eof with
        | false =>
          refine ⟨?_, fun _ => ⟨i, pre0, n + 1, hn, ?_⟩, ?_⟩
          · intro hp; simp at hp
          · rw [hpre, List.replicate_succ']
            simp
          · intro hp; simp at hp
        | true =>
          refine ⟨?_, ?_, fun _ => ⟨i, pre0, n, hn, ?_⟩⟩
          · intro hp; simp at hp
          · intro hp; simp at hp
          · rw [hpre]
            simp
      · cases hstep
    | close =>
      simp only [Monitor.step] at hstep
      split at hstep
      · rename_i hc
        simp only [Option.some.injEq] at hstep
        subst hstep
        obtain ⟨i, pre0, n, hn, hpre⟩ := ihC hc
        refine ⟨fun _ => Or.inr (Or.inr ⟨i, pre0, n, hn, ?_⟩), ?_, ?_⟩
        · rw [hpre]
          simp
        · intro hp; simp at hp
        · intro hp; simp at hp
      · cases hstep

section Sequencing

variable {σ : Type} (io : ReadCloser σ)

/-- The calls made by the branch `if r.current != nil` follow the discipline. -/
theorem Merger.readCurrent_tracks (r : Merger σ) (c : σ) (p : Nat) (m : Monitor)
    (h1 : r.err = none) (hn : m.next = min r.index r.downloads.length)
    (hp : m.phase = Phase.streaming) :
    ∃ m2, Monitor.run m (Merger.readCurrent io r c p).trace = some m2 ∧
      Tracks (Merger.readCurrent io r c p).r m2 := by
  by_cases heof : (io.Read c p).2.1 = some GoError.EOF
  · rw [Merger.readCurrent_of_EOF io r c p heof]
    refine ⟨⟨m.next, Phase.idle⟩, ?_, h1, hn, ?_⟩
    · simp [Monitor.run, Monitor.step, hp]
    · simp
  · rw [Merger.readCurrent_of_not_EOF io r c p heof]
    refine ⟨⟨m.next, Phase.streaming⟩, ?_, h1, hn, ?_⟩
    · simp [Monitor.run, Monitor.step, hp]
    · simp

/-- The calls made by one `Merger.Read` follow the discipline. -/
theorem Merger.Read_tracks (r : Merger σ) (p : Nat) (o : ReadResult σ) (m : Monitor)
    (ht : Tracks r m) (ho : Merger.Read io r p = some o) :
    ∃ m2, Monitor.run m o.trace = some m2 ∧ Tracks o.r m2 := by
  obtain ⟨h1, hn, hp⟩ := ht
  cases h2 : r.current with
  | some c =>
    rw [Merger.Read_of_current io r p c h1 h2] at ho
    cases ho
    exact Merger.readCurrent_tracks io r c p m h1 hn (by simpa [h2] using hp)
  | none =>
    have hidle : m.phase = Phase.idle := by simpa [h2] using hp
    by_cases h3 : r.index < r.downloads.length
    · have hnext : m.next = r.index := by omega
      have hmin : min (r.index + 1) r.downloads.length = r.index + 1 := by omega
      rw [Merger.Read_of_invoke io r p h1 h2 h3] at ho
      split at ho
      · rename_i e he
        cases ho
        refine ⟨⟨m.next + 1, if (r.downloads.get ⟨r.index, h3⟩ ()).1.isSome then
          Phase.streaming else Phase.idle⟩, ?_, h1, ?_, rfl⟩
        · simp [Monitor.run, Monitor.step, hidle, hnext]
        · simp only [hmin, hnext]
      · split at ho
        · cases ho
          refine ⟨⟨m.next + 1, Phase.idle⟩, ?_, h1, ?_, rfl⟩
          · simp [Monitor.run, Monitor.step, hidle, hnext]
          · simp only [hmin, hnext]
        · rename_i c hc
          cases ho
          obtain ⟨m2, hm2, ht2⟩ := Merger.readCurrent_tracks io
            { r with current := some c, index := r.index + 1 } c p
            ⟨m.next + 1, Phase.streaming⟩ h1 (by simp only [hmin, hnext]) rfl
          refine ⟨m2, ?_, ht2⟩
          simpa [ReadResult.after, Monitor.run, Monitor.step, hidle, hnext] using hm2
    · rw [Merger.Read_of_exhausted io r p h1 h2 (by omega)] at ho
      cases ho
      refine ⟨m, rfl, h1, ?_, ?_⟩
      · simp only
        omega
      · simpa using hidle

/-- The calls made by a sequence of `Merger.Read` calls follow the discipline. -/
theorem Merger.Reads_tracks (r : Merger σ) (ps : List Nat) (run : RunResult σ) (m : Monitor)
    (ht : Tracks r m) (hrun : Merger.Reads io r ps = some run) :
    ∃ m2, Monitor.run m run.trace = some m2 ∧ Tracks run.r m2 := by
  induction ps generalizing r run m with
  | nil =>
    simp only [Merger.Reads, Option.some.injEq] at hrun
    subst hrun
    exact ⟨m, rfl, ht⟩
  | cons p ps ih =>
    obtain ⟨o, ho⟩ := Merger.Read_returns io r p
    obtain ⟨run2, hrun2⟩ := Merger.Reads_returns io o.r ps
    rw [Merger.Reads_cons io r p ps o run2 ho hrun2, Option.some.injEq] at hrun
    subst hrun
    obtain ⟨m1, hm1, ht1⟩ := Merger.Read_tracks io r p o m ht ho
    obtain ⟨m2, hm2, ht2⟩ := ih o.r run2 m1 ht1 hrun2
    refine ⟨m2, ?_, ht2⟩
    rw [Monitor.run_append, hm1]
    exact hm2

end Sequencing

/-- C4: every sequence of `Merger.Read` calls on a fresh `Merger` returns, and in the
calls it makes (a) providers are invoked in list order, each once; (b) at no point is
more than one stream opened and not closed; (c) provider `i + 1` is invoked only
directly after provider `i` returned no stream, or directly after the stream opened
by provider `i` was read until it returned end-of-stream and was then closed. -/
theorem merger_strict_sequencing {σ : Type} (io : ReadCloser σ) (ds : List (downloadFunc σ))
    (ps : List Nat) :
    ∃ run, Merger.Reads io (Merger.new ds) ps = some run ∧
      invoked run.trace = List.range (invoked run.trace).length ∧
      (∀ pre, pre <+: run.trace → closes pre ≤ opens pre ∧ opens pre ≤ closes pre + 1) ∧
      (∀ pre i opened post, run.trace = pre ++ Event.invoke (i + 1) opened :: post →
        (∃ pre0, pre = pre0 ++ [Event.invoke i false]) ∨
        (∃ pre0 n, pre = pre0 ++ Event.invoke i true ::
          (List.replicate n (Event.read false) ++ [Event.read true, Event.close]))) := by
  obtain ⟨run, hrun⟩ := Merger.Reads_returns io (Merger.new ds) ps
  have ht0 : Tracks (Merger.new ds) ⟨0, Phase.idle⟩ := ⟨rfl, by simp [Merger.new], rfl⟩
  obtain ⟨st, hst, _⟩ := Merger.Reads_tracks io (Merger.new ds) ps run _ ht0 hrun
  refine ⟨run, hrun, ?_, ?_, ?_⟩
  · have h := (Monitor.run_invoked _ _ _ hst).2
    simp only [Nat.sub_zero] at h
    rw [h, List.length_range', List.range_eq_range']
  · rintro pre ⟨post, hpost⟩
    rw [← hpost] at hst
    obtain ⟨m2, hm2, _⟩ := Monitor.run_append_some _ _ _ _ hst
    have h := Monitor.run_held _ _ _ hm2
    have h0 : (⟨0, Phase.idle⟩ : Monitor).held = 0 := rfl
    have h1 : m2.held ≤ 1 := by
      unfold Monitor.held
      split <;> omega
    omega
  · intro pre i opened post hsplit
    rw [hsplit] at hst
    obtain ⟨m2, hm2, hrest⟩ := Monitor.run_append_some _ _ _ _ hst
    simp only [Monitor.run] at hrest
    cases hs : m2.step (Event.invoke (i + 1) opened) with
    | none => rw [hs] at hrest; cases hrest
    | some m3 =>
      simp only [Monitor.step] at hs
      split at hs
      · rename_i hc
        have hnext := hc.2
        rcases (Monitor.run_shape pre m2 hm2).1 hc.1 with
          ⟨h0, _⟩ | ⟨j, pre0, hj, hpre⟩ | ⟨j, pre0, n, hj, hpre⟩
        · omega
        · have : j = i := by omega
          subst this
          exact Or.inl ⟨pre0, hpre⟩
        · have : j = i := by omega
          subst this
          exact Or.inr ⟨pre0, n, hpre⟩
      · cases hs

/-! ### The field `index` as a Go `int` -/

theorem two_pow_pred_double (bits : Nat) (hb : 0 < bits) :
    2 ^ bits = 2 * 2 ^ (bits - 1) := by
  cases bits with
  | zero => omega
  | succ n => simp [Nat.pow_succ, Nat.mul_comm]

theorem intValue_of_lt (bits x : Nat) (hb : 0 < bits) (h : x < 2 ^ (bits - 1)) :
    intValue bits x = x := by
  have hd := two_pow_pred_double bits hb
  have hmod : x % 2 ^ bits = x := Nat.mod_eq_of_lt (by omega)
  unfold intValue
  rw [hmod, if_pos h]

theorem intValue_neg (bits x : Nat) (h1 : 2 ^ (bits - 1) ≤ x)
    (h2 : x < 2 ^ bits) : intValue bits x < 0 := by
  have hmod : x % 2 ^ bits = x := Nat.mod_eq_of_lt h2
  unfold intValue
  rw [hmod, if_neg (by omega)]
  omega

section IntIndex

variable {σ : Type} (io : ReadCloser σ)

/-- Below the largest `int`, `next` with a wrapping `index` is `next`. -/
theorem Merger.nextInt_eq_next (bits : Nat) (r : Merger σ) (hb : 0 < bits)
    (h : r.index < 2 ^ (bits - 1)) : r.nextInt bits = some r.next := by
  have hd := two_pow_pred_double bits hb
  have hv := intValue_of_lt bits r.index hb h
  have hmod : (r.index + 1) % 2 ^ bits = r.index + 1 := Nat.mod_eq_of_lt (by omega)
  unfold Merger.nextInt Merger.next
  by_cases hg : r.index ≥ r.downloads.length
  · have hg2 : intValue bits r.index ≥ r.downloads.length := by rw [hv]; exact_mod_cast hg
    rw [dif_pos hg2, dif_pos hg, hmod]
  · have hg2 : ¬ intValue bits r.index ≥ r.downloads.length := by
      rw [hv]; intro hc; exact hg (by exact_mod_cast hc)
    have h0 : 0 ≤ intValue bits r.index := by rw [hv]; omega
    rw [dif_neg hg2, dif_pos h0, dif_neg hg]
    simp only [hv, Int.toNat_ofNat, hmod]

/-- Below the largest `int`, `Read` with a wrapping `index` returns what `Read`
returns: it does not panic. -/
theorem Merger.ReadInt_eq_Read (bits : Nat) (r : Merger σ) (p : Nat) (hb : 0 < bits)
    (h : r.index < 2 ^ (bits - 1)) :
    Merger.ReadInt bits io r p = (Merger.Read io r p).map Outcome.returned := by
  cases h1 : r.err with
  | some e => simp [Merger.ReadInt, Merger.ReadInt.loop, Merger.Read, Merger.Read.loop, h1]
  | none =>
    cases h2 : r.current with
    | some c =>
      simp [Merger.ReadInt, Merger.ReadInt.loop, Merger.Read, Merger.Read.loop, h1, h2]
    | none =>
      simp only [Merger.ReadInt, Merger.ReadInt.loop, Merger.Read, Merger.Read.loop, h1, h2,
        Merger.nextInt_eq_next bits r hb h]
      split
      · rfl
      · split
        · rfl
        · rename_i hn c hc
          have he : (r.next).2.1.err = none := by
            unfold Merger.next
            split <;> exact h1
          simp only [he, hc, Option.map_some', Outcome.after]

/-- Once `index` has wrapped to a negative `int`, a `Read` with no stream open panics. -/
theorem Merger.ReadInt_panics (bits : Nat) (r : Merger σ) (p : Nat)
    (h1 : r.err = none) (h2 : r.current = none)
    (h3 : 2 ^ (bits - 1) ≤ r.index) (h4 : r.index < 2 ^ bits) :
    Merger.ReadInt bits io r p = some Outcome.panicked := by
  have hneg := intValue_neg bits r.index h3 h4
  have hg : ¬ intValue bits r.index ≥ r.downloads.length := by omega
  have h0 : ¬ 0 ≤ intValue bits r.index := by omega
  simp [Merger.ReadInt, Merger.ReadInt.loop, h1, h2, Merger.nextInt, hg, h0]

/-- From an exhausted reader whose `index` is `k` short of `2 ^ (bits - 1)`, the next
`k` calls of `Read` return no bytes and `io.EOF`, and the call after them panics. -/
theorem Merger.ReadsInt_tail (bits : Nat) (r : Merger σ) (k q : Nat) (hb : 0 < bits)
    (h1 : r.err = none) (h2 : r.current = none) (h3 : r.downloads.length ≤ r.index)
    (hk : r.index + k = 2 ^ (bits - 1)) :
    Merger.ReadsInt bits io r (List.replicate k q ++ [q]) =
      some (List.replicate k (some ([], some GoError.EOF)) ++ [none]) := by
  induction k generalizing r with
  | zero =>
    have hd := two_pow_pred_double bits hb
    have hpos : 0 < 2 ^ (bits - 1) := Nat.two_pow_pos _
    have hp := Merger.ReadInt_panics io bits r q h1 h2 (by omega) (by omega)
    simp only [List.replicate_zero, List.nil_append, Merger.ReadsInt, hp]
  | succ k ih =>
    have hR := Merger.ReadInt_eq_Read io bits r q hb (by omega)
    rw [Merger.Read_of_exhausted io r q h1 h2 h3] at hR
    have hrec := ih { r with current := none, index := r.index + 1 } h1 rfl
      (by simp only; omega) (by simp only; omega)
    show Merger.ReadsInt bits io r (q :: (List.replicate k q ++ [q])) =
      some (some ([], some GoError.EOF) ::
        (List.replicate k (some ([], some GoError.EOF)) ++ [none]))
    simp only [Merger.ReadsInt, hR, Option.map_some']
    rw [hrec]
    rfl

end IntIndex

/-- C10 fails on the code: a `Merger` with no providers returns `io.EOF` from its first
`Read` and from each later one until `index` has wrapped around, `2 ^ 31` calls in all
where `int` has 32 bits and `2 ^ 63` where it has 64; the call after these panics
instead of returning 0 bytes and `io.EOF`. -/
theorem merger_tail_panics :
    Merger.ReadsInt 32 sliceReader (Merger.new []) (List.replicate (2 ^ 31) 1 ++ [1]) =
      some (List.replicate (2 ^ 31) (some ([], some GoError.EOF)) ++ [none]) ∧
    Merger.ReadsInt 64 sliceReader (Merger.new []) (List.replicate (2 ^ 63) 1 ++ [1]) =
      some (List.replicate (2 ^ 63) (some ([], some GoError.EOF)) ++ [none]) :=
  ⟨Merger.ReadsInt_tail sliceReader 32 (Merger.new []) (2 ^ 31) 1 (by omega) rfl rfl
      (Nat.le_refl 0) (Nat.zero_add _),
    Merger.ReadsInt_tail sliceReader 64 (Merger.new []) (2 ^ 63) 1 (by omega) rfl rfl
      (Nat.le_refl 0) (Nat.zero_add _)⟩

/-- C1: when each of the `N >= 0` providers opens successfully and its stream delivers
a finite byte sequence followed by end-of-stream and closes without error, calling
`Merger.Read` with non-empty buffers until it first returns `io.EOF` yields (given
enough calls) exactly the concatenation of the sources' bytes in list order; and for
`N = 0` the very first `Read` returns 0 bytes and `io.EOF`. -/
theorem merger_round_trip {σ : Type} (io : ReadCloser σ) (ds : List (downloadFunc σ))
    (datas : List (List Byte)) (hall : List.Forall₂ (Provides io) ds datas) :
    (∃ B, ∀ ps : List Nat, (∀ p ∈ ps, 0 < p) → B ≤ ps.length →
      Merger.drain io (Merger.new ds) ps = some (datas.flatten, true)) ∧
    (ds = [] → ∀ p, ∃ o, Merger.Read io (Merger.new ds) p = some o ∧
      o.data = [] ∧ o.err = some GoError.EOF) := by
  refine ⟨Merger.drain_providers io datas (Merger.new ds) rfl rfl (by simpa [Merger.new] using hall),
    ?_⟩
  intro hds p
  subst hds
  exact ⟨_, Merger.Read_of_exhausted io (Merger.new []) p rfl rfl (by simp [Merger.new]), rfl, rfl⟩

theorem merger_round_trip_witness :
    (∃ B, ∀ ps : List Nat, (∀ p ∈ ps, 0 < p) → B ≤ ps.length →
      Merger.drain sliceReader (Merger.new [okDownload [1, 2, 3], okDownload [4]]) ps =
        some ([1, 2, 3, 4], true)) ∧
    ([okDownload [1, 2, 3], okDownload [4]] = [] → ∀ p, ∃ o,
      Merger.Read sliceReader (Merger.new [okDownload [1, 2, 3], okDownload [4]]) p = some o ∧
      o.data = [] ∧ o.err = some GoError.EOF) :=
  merger_round_trip sliceReader [okDownload [1, 2, 3], okDownload [4]] [[1, 2, 3], [4]]
    (List.Forall₂.cons (okDownload_provides _)
      (List.Forall₂.cons (okDownload_provides _) List.Forall₂.nil))

/-- C2 fails on the code: the first provider fails, the `Read` that invoked it returns
its error, and the next `Read` invokes the second provider and returns its bytes
instead of the same error (nothing ever assigns the field `err`). -/
theorem merger_failure_not_sticky :
    (Merger.Reads sliceReader (Merger.new [failedDownload "404", okDownload [4]]) [2, 2]).map
      (fun run => (run.outs, run.trace)) =
    some ([([], some (GoError.WithStack (GoError.New "404"))), ([4], none)],
      [Event.invoke 0 false, Event.invoke 1 true, Event.read false]) := by
  decide

/-- C9 fails on the code: with one provider, read until `io.EOF`, `Current()` is 2
although `Chunks()` is 1 and a single provider was invoked. -/
theorem merger_current_overcounts :
    (Merger.Reads sliceReader (Merger.new [okDownload [7]]) [1, 1, 1]).map
      (fun run => (run.outs, run.r.Current, run.r.Chunks, run.trace)) =
    some ([([7], none), ([], none), ([], some GoError.EOF)], 2, 1,
      [Event.invoke 0 true, Event.read false, Event.read true, Event.close]) := by
  decide

/-- C12, as amended: in every state reached from a fresh `Merger` in which a source is
open and a further provider remains, when the open source's `Read` returns `io.EOF`,
that `Merger.Read` calls `Close` on the source, clears it, and returns the bytes read
with the stack-wrapped result of `Close` as its error (never `io.EOF`), making no
other call and leaving `index` as it was; the next provider is invoked by the
following `Merger.Read`, as its first call. -/
theorem merger_source_transition {σ : Type} (io : ReadCloser σ) (ds : List (downloadFunc σ))
    (ps : List Nat) (run : RunResult σ) (c : σ) (p : Nat)
    (hrun : Merger.Reads io (Merger.new ds) ps = some run)
    (hcur : run.r.current = some c) (hmore : run.r.index < ds.length)
    (heof : (io.Read c p).2.1 = some GoError.EOF) :
    ∃ o, Merger.Read io run.r p = some o ∧
      o.data = (io.Read c p).1 ∧
      o.err = errors_WithStack (io.Close (io.Read c p).2.2) ∧
      o.err ≠ some GoError.EOF ∧
      o.trace = [Event.read true, Event.close] ∧
      o.r.current = none ∧ o.r.index = run.r.index ∧
      ∀ q, ∃ o2 opened, Merger.Read io o.r q = some o2 ∧
        o2.trace.head? = some (Event.invoke run.r.index opened) := by
  have hpres := Merger.Reads_preserves io (Merger.new ds) ps run hrun
  have hd : run.r.downloads = ds := hpres.1
  have he : run.r.err = none := hpres.2
  have hR := Merger.Read_of_current io run.r p c he hcur
  rw [Merger.readCurrent_of_EOF io run.r c p heof] at hR
  refine ⟨_, hR, rfl, rfl, errors_WithStack_ne_EOF _, rfl, rfl, rfl, ?_⟩
  intro q
  have h3 : run.r.index < run.r.downloads.length := by rw [hd]; exact hmore
  have hN := Merger.Read_of_invoke io { run.r with current := none } q he rfl h3
  simp only at hN ⊢
  rw [hN]
  split
  · exact ⟨_, _, rfl, rfl⟩
  · split
    · exact ⟨_, false, rfl, rfl⟩
    · exact ⟨_, true, rfl, rfl⟩

theorem merger_source_transition_witness :
    ∃ o, Merger.Read sliceReader
        (⟨[okDownload [1], okDownload [2]], 1, some [], none⟩ : Merger (List Byte)) 1 = some o ∧
      o.data = [] ∧ o.err = none ∧ o.err ≠ some GoError.EOF ∧
      o.trace = [Event.read true, Event.close] ∧
      o.r.current = none ∧ o.r.index = 1 ∧
      ∀ q, ∃ o2 opened, Merger.Read sliceReader o.r q = some o2 ∧
        o2.trace.head? = some (Event.invoke 1 opened) :=
  merger_source_transition sliceReader [okDownload [1], okDownload [2]] [1]
    ⟨[([1], none)], ⟨[okDownload [1], okDownload [2]], 1, some [], none⟩,
      [Event.invoke 0 true, Event.read false]⟩ [] 1 rfl rfl (by decide) rfl

/-- C12 as stated fails: with two providers and the first source open and at its end,
the `Merger.Read` in which the source returns `io.EOF` closes it and returns without
invoking the second provider. -/
theorem merger_source_transition_counterexample :
    ¬ (∀ (σ : Type) (io : ReadCloser σ) (ds : List (downloadFunc σ)) (ps : List Nat)
        (run : RunResult σ) (c : σ) (p : Nat),
        Merger.Reads io (Merger.new ds) ps = some run →
        run.r.current = some c → run.r.index < ds.length →
        (io.Read c p).2.1 = some GoError.EOF →
        ∃ o, Merger.Read io run.r p = some o ∧ Event.close ∈ o.trace ∧
          (∃ opened, Event.invoke run.r.index opened ∈ o.trace) ∧
          o.err ≠ some GoError.EOF) := by
  intro h
  obtain ⟨o, ho, _, ⟨opened, hinv⟩, _⟩ := h (List Byte) sliceReader
    [okDownload [1], okDownload [2]] [1]
    ⟨[([1], none)], ⟨[okDownload [1], okDownload [2]], 1, some [], none⟩,
      [Event.invoke 0 true, Event.read false]⟩ [] 1 rfl rfl (by decide) rfl
  have hR : Merger.Read sliceReader
      (⟨[okDownload [1], okDownload [2]], 1, some [], none⟩ : Merger (List Byte)) 1 =
      some ⟨[], none, ⟨[okDownload [1], okDownload [2]], 1, none, none⟩,
        [Event.read true, Event.close]⟩ := rfl
  simp only at ho
  rw [hR] at ho
  cases ho
  simp at hinv

theorem Media.number_length (n : Int) (entries : List (Int × String)) :
    (Media.number n entries).length = entries.length := by
  induction entries generalizing n with
  | nil => rfl
  | cons e rest ih =>
    obtain ⟨d, url⟩ := e
    simp [Media.number, ih]

theorem Media.number_getElem (n : Int) (entries : List (Int × String)) (i : Nat)
    (hi : i < (Media.number n entries).length) :
    (Media.number n entries)[i].Number = n + i := by
  induction entries generalizing n i with
  | nil => simp [Media.number] at hi
  | cons e rest ih =>
    obtain ⟨d, url⟩ := e
    cases i with
    | zero => simp [Media.number]
    | succ i =>
      simp only [Media.number, List.getElem_cons_succ]
      rw [ih (n + 1) i (by simpa [Media.number] using hi)]
      push_cast
      omega

theorem Media.number_urls (n : Int) (entries : List (Int × String)) :
    (Media.number n entries).map MediaSegment.URL = entries.map Prod.snd := by
  induction entries generalizing n with
  | nil => rfl
  | cons e rest ih =>
    obtain ⟨d, url⟩ := e
    simp [Media.number, ih]

/-- A directive or comment line emits no segment. -/
theorem Media.directive_entries (st st2 : Media.State) (line : List Char)
    (h : Media.directive st line = .ok st2) : st2.entries = st.entries := by
  unfold Media.directive at h
  repeat' split at h
  all_goals first
    | cases h; rfl
    | cases h

/-- A line of the forward pass emits a segment with the line as URL when it is a URI
line, and emits nothing otherwise. -/
theorem Media.step_entries (st st2 : Media.State) (line : List Char)
    (h : Media.step st line = .ok st2) :
    st2.entries.map Prod.snd = st.entries.map Prod.snd ++
      (([line].filter fun l => l ≠ [] ∧ l.head? ≠ some (Char.ofNat 35)).map String.mk) := by
  unfold Media.step at h
  split at h
  · rename_i h1
    cases h
    simp [h1]
  · rename_i h1
    split at h
    · rename_i h2
      rw [Media.directive_entries st st2 line h]
      simp [h2]
    · rename_i h2
      split at h
      · cases h
      · cases h
        simp [h1, h2]

/-- The forward pass emits one segment for each URI line, in the order of the lines. -/
theorem Media.scan_entries (st st2 : Media.State) (lines : List (List Char))
    (h : Media.scan st lines = .ok st2) :
    st2.entries.map Prod.snd = st.entries.map Prod.snd ++
      ((lines.filter fun l => l ≠ [] ∧ l.head? ≠ some (Char.ofNat 35)).map String.mk) := by
  induction lines generalizing st with
  | nil =>
    simp only [Media.scan, Except.ok.injEq] at h
    subst h
    simp
  | cons line rest ih =>
    simp only [Media.scan] at h
    cases hs : Media.step st line with
    | error e => rw [hs] at h; cases h
    | ok st1 =>
      rw [hs] at h
      rw [ih st1 h, Media.step_entries st st1 line hs]
      by_cases hl : line ≠ [] ∧ line.head? ≠ some (Char.ofNat 35)
      · simp [List.filter_cons, hl]
      · simp [List.filter_cons, hl]

/-- C11: for every text that `m3u8.Media` parses successfully, `Segments[i].Number`
is `Sequence + i` for every index `i`, and the segments are in the order their URI
lines appear in the text. -/
theorem media_segment_numbering (text : String) (playlist : MediaPlaylist)
    (h : Media text = .ok playlist) :
    (∀ (i : Nat) (hi : i < playlist.Segments.length),
      playlist.Segments[i].Number = playlist.Sequence + i) ∧
    playlist.Segments.map MediaSegment.URL = uriLines text := by
  unfold Media at h
  split at h
  · cases h
  · rename_i header rest hlines
    split at h
    · split at h
      · cases h
      · rename_i st hscan
        cases h
        refine ⟨fun i hi => Media.number_getElem st.Sequence st.entries i hi, ?_⟩
        rw [Media.number_urls, Media.scan_entries _ st rest hscan]
        simp [uriLines, hlines]
    · cases h

theorem media_segment_numbering_witness :
    Media testMediaText = .ok testMediaPlaylist ∧
    (∀ (i : Nat) (hi : i < testMediaPlaylist.Segments.length),
      testMediaPlaylist.Segments[i].Number = testMediaPlaylist.Sequence + i) ∧
    testMediaPlaylist.Segments.map MediaSegment.URL = uriLines testMediaText :=
  ⟨rfl, media_segment_numbering testMediaText testMediaPlaylist rfl⟩

end TwitchDL
